import Mathlib

/-!
Verification of the confirmation-rule evaluation engine
(src/confirmation_rule.py of circlefin/ethereum-fast-confirmation-rule).

The Python code is shallowly embedded: Python ints become `Nat`/`Int`,
Python float arithmetic (threshold coefficients such as `2/3`, `40/100`
and the byzantine/slashing thresholds) is modelled as exact rational
arithmetic over `Rat`, dictionaries become association lists, exceptions
(assertion failures, `KeyError`) become an explicit error type, and
unbounded loops/recursions take a fuel parameter (fuel exhaustion models
nontermination).
-/

namespace ConfRule

/-- `SLOTS_PER_EPOCH` of the capella mainnet preset, as read by the code. -/
def SLOTS_PER_EPOCH : ℕ := 32

/-- `SECONDS_PER_SLOT` of the mainnet config (`SLOT_LEN` in the code). -/
def SLOT_LEN : ℕ := 12

/-- `VALIDATOR_BALANCE = 32 * 10**9`: assumed uniform validator stake. -/
def VALIDATOR_BALANCE : ℕ := 32 * 10 ^ 9

/-- `PROPOSER_SCORE_BOOST = 40` (percent). -/
def PROPOSER_SCORE_BOOST : ℕ := 40

/-- `COMMITTEE_WEIGHT_ESTIMATION_ADJUSTMENT_FACTOR = 5`. -/
def COMMITTEE_WEIGHT_ESTIMATION_ADJUSTMENT_FACTOR : ℕ := 5

/-- `__ceil_div`: `ceil(numerator / denominator)` in integer arithmetic,
mirroring the branch on `numerator % denominator == 0`. -/
def ceil_div (numerator denominator : ℕ) : ℕ :=
  if numerator % denominator = 0 then numerator / denominator
  else numerator / denominator + 1

/-- `spec.compute_epoch_at_slot`: integer division by `SLOTS_PER_EPOCH`. -/
def compute_epoch_at_slot (slot : ℕ) : ℕ := slot / SLOTS_PER_EPOCH

/-- One fork-choice node, as consumed from `conf_info["nodes"]`. -/
structure Node where
  block_root : ℕ
  slot : ℕ
  weight : ℕ
  parent_root : ℕ
deriving DecidableEq, Repr

/-- One snapshot (`conf_info`): nodes keyed by root (association list in
dict insertion order), checkpoints, time coordinates and committee size. -/
structure ConfInfo where
  nodes : List (ℕ × Node)
  justified_root : ℕ
  finalized_root : ℕ
  current_slot : ℕ
  current_time_in_slot : ℕ
  committee_size : ℕ
deriving DecidableEq, Repr

deriving instance DecidableEq for Except

/-- Dictionary lookup `conf_info["nodes"][root]` (`none` models `KeyError`). -/
def look (ci : ConfInfo) (root : ℕ) : Option Node :=
  ci.nodes.lookup root

/-- `__get_total_active_balance`:
`SLOTS_PER_EPOCH * committee_size * VALIDATOR_BALANCE`. -/
def get_total_active_balance (ci : ConfInfo) : ℕ :=
  SLOTS_PER_EPOCH * ci.committee_size * VALIDATOR_BALANCE

/-- `__is_full_validator_set_covered`: whether `[start_slot, end_slot]`
includes an entire epoch. -/
def is_full_validator_set_covered (start_slot end_slot : ℕ) : Bool :=
  let start_epoch := compute_epoch_at_slot start_slot
  let end_epoch := compute_epoch_at_slot end_slot
  let at_boundary := start_slot % SLOTS_PER_EPOCH = 0 ∨ (end_slot + 1) % SLOTS_PER_EPOCH = 0
  decide (end_epoch > start_epoch + 1 ∨ (at_boundary ∧ start_slot + SLOTS_PER_EPOCH - 1 ≤ end_slot))

/-- `__adjust_committee_weight_estimate_to_ensure_safety`:
multiply by `(1000 + 5)/1000` with ceiling division. -/
def adjust_committee_weight_estimate_to_ensure_safety (estimate : ℕ) : ℕ :=
  ceil_div (estimate * (1000 + COMMITTEE_WEIGHT_ESTIMATION_ADJUSTMENT_FACTOR)) 1000

/-- `__get_committee_weight_between_slots`: total weight of committees
between `start_slot` and `end_slot`, inclusive of both. -/
def get_committee_weight_between_slots (ci : ConfInfo) (start_slot end_slot : ℕ) : ℕ :=
  let total_active_balance := get_total_active_balance ci
  let start_epoch := compute_epoch_at_slot start_slot
  let end_epoch := compute_epoch_at_slot end_slot
  if start_slot > end_slot then 0
  else if is_full_validator_set_covered start_slot end_slot then total_active_balance
  else if start_epoch = end_epoch then
    ceil_div ((end_slot - start_slot + 1) * total_active_balance) SLOTS_PER_EPOCH
  else
    let num_slots_in_end_epoch := end_slot % SLOTS_PER_EPOCH + 1
    let remaining_slots_in_end_epoch := SLOTS_PER_EPOCH - num_slots_in_end_epoch
    let num_slots_in_start_epoch := SLOTS_PER_EPOCH - start_slot % SLOTS_PER_EPOCH
    let end_epoch_weight_mul_by_slots_per_epoch := num_slots_in_end_epoch * total_active_balance
    let start_epoch_weight_mul_by_slots_per_epoch :=
      ceil_div (num_slots_in_start_epoch * remaining_slots_in_end_epoch * total_active_balance)
        SLOTS_PER_EPOCH
    adjust_committee_weight_estimate_to_ensure_safety
      (ceil_div
        (start_epoch_weight_mul_by_slots_per_epoch + end_epoch_weight_mul_by_slots_per_epoch)
        SLOTS_PER_EPOCH)

/-- `__get_remaining_weight_in_epoch`: weight of committees of the current
epoch yet to vote, the current slot itself excluded. -/
def get_remaining_weight_in_epoch (cur : ℕ) (ci : ConfInfo) : ℕ :=
  (SLOTS_PER_EPOCH - cur % SLOTS_PER_EPOCH - 1) * ci.committee_size * VALIDATOR_BALANCE

/-- `proposer_score` as computed in `__is_one_lmd_confirmed` (and the equal
`proposer_boost_weight` of `__get_checkpoint_ffg_support`): Python float
arithmetic `(40 / 100) * ceil_div(total, SLOTS_PER_EPOCH)`, embedded
as exact rational arithmetic. -/
def proposer_score (ci : ConfInfo) : ℚ :=
  (PROPOSER_SCORE_BOOST : ℚ) / 100 *
    ((ceil_div (get_total_active_balance ci) SLOTS_PER_EPOCH : ℕ) : ℚ)

/-- Left-hand side of the FFG comparison, `(2 / 3) * total_validators_weight`
of `__is_ffg_confirmed` (Python float division embedded as a rational). -/
def ffg_required_weight (ci : ConfInfo) : ℚ :=
  (2 : ℚ) / 3 * (get_total_active_balance ci : ℚ)

/-- Python's two-argument `min` on the embedded rationals, written as a
conditional so that it evaluates by kernel reduction; equal to `min`. -/
def pymin (a b : ℚ) : ℚ := if a ≤ b then a else b

lemma pymin_eq_min (a b : ℚ) : pymin a b = min a b := by
  rw [pymin, min_def]

lemma ceil_div_exact (n d : ℕ) (h : n % d = 0) : ceil_div n d = n / d := by
  simp [ceil_div, h]

lemma ceil_div_self_mul (d x : ℕ) (hd : 0 < d) : ceil_div (d * x) d = x := by
  rw [ceil_div_exact _ _ (by simp), Nat.mul_div_cancel_left _ hd]

lemma full_covered_iff (s e : ℕ) :
    is_full_validator_set_covered s e = true ↔
      (e / 32 > s / 32 + 1 ∨ ((s % 32 = 0 ∨ (e + 1) % 32 = 0) ∧ s + 31 ≤ e)) := by
  simp [is_full_validator_set_covered, compute_epoch_at_slot, SLOTS_PER_EPOCH]

end ConfRule

namespace ConfRule

/-- C3: if the slot range `[start_slot, end_slot]` fully contains some epoch
`[32*k, 32*k+31]`, then `__get_committee_weight_between_slots` returns
exactly the total active balance, with no inflation adjustment applied
(in particular for every exact single epoch `[32*k, 32*k+31]`). -/
theorem committee_weight_full_epoch (ci : ConfInfo) (s e : ℕ)
    (h : ∃ k, s ≤ 32 * k ∧ 32 * k + 31 ≤ e) :
    get_committee_weight_between_slots ci s e = get_total_active_balance ci := by
  obtain ⟨k, hk1, hk2⟩ := h
  have hfull : is_full_validator_set_covered s e = true := by
    rw [full_covered_iff]; omega
  have hse : ¬ s > e := by omega
  simp [get_committee_weight_between_slots, hfull, hse]

/-- Witness for `committee_weight_full_epoch` at the concrete epoch `[0, 31]`. -/
theorem committee_weight_full_epoch_witness :
    (∃ k, 0 ≤ 32 * k ∧ 32 * k + 31 ≤ 31) ∧
      get_committee_weight_between_slots
        { nodes := [], justified_root := 0, finalized_root := 0, current_slot := 0,
          current_time_in_slot := 0, committee_size := 3 } 0 31 =
      get_total_active_balance
        { nodes := [], justified_root := 0, finalized_root := 0, current_slot := 0,
          current_time_in_slot := 0, committee_size := 3 } :=
  ⟨⟨0, by decide⟩, committee_weight_full_epoch _ 0 31 ⟨0, by decide⟩⟩

/-- Closed form of the committee weight on a range inside a single epoch. -/
lemma cw_same_epoch (ci : ConfInfo) (s e : ℕ) (hse : s ≤ e)
    (hf : is_full_validator_set_covered s e = false) (he : s / 32 = e / 32) :
    get_committee_weight_between_slots ci s e =
      (e - s + 1) * (ci.committee_size * 32000000000) := by
  have hgt : ¬ s > e := by omega
  simp only [get_committee_weight_between_slots, hf, hgt, if_false, Bool.false_eq_true,
    compute_epoch_at_slot, SLOTS_PER_EPOCH, he, if_true, if_neg, ite_false, ite_true]
  have key : (e - s + 1) * get_total_active_balance ci =
      32 * ((e - s + 1) * (ci.committee_size * 32000000000)) := by
    simp only [get_total_active_balance, SLOTS_PER_EPOCH, VALIDATOR_BALANCE]
    ring
  rw [key, ceil_div_self_mul _ _ (by norm_num)]

/-- Closed form of the committee weight on a boundary-spanning range that does
not fully cover an epoch (the inflation-adjusted pro-rata estimate). -/
lemma cw_cross_epoch (ci : ConfInfo) (s e : ℕ) (hse : s ≤ e)
    (hf : is_full_validator_set_covered s e = false) (he : s / 32 ≠ e / 32) :
    get_committee_weight_between_slots ci s e =
      1005 * (((32 - s % 32) * (31 - e % 32) + 32 * (e % 32 + 1)) *
        (ci.committee_size * 1000000)) := by
  have hgt : ¬ s > e := by omega
  simp only [get_committee_weight_between_slots, hf, Bool.false_eq_true,
    compute_epoch_at_slot, SLOTS_PER_EPOCH]
  rw [if_neg hgt, if_neg (by simp), if_neg he]
  have h1 : (32 - (s % 32)) * (32 - (e % 32 + 1)) * get_total_active_balance ci =
      32 * ((32 - s % 32) * (31 - e % 32) * (ci.committee_size * 32000000000)) := by
    have : 32 - (e % 32 + 1) = 31 - e % 32 := by omega
    rw [this]
    simp only [get_total_active_balance, SLOTS_PER_EPOCH, VALIDATOR_BALANCE]
    ring
  rw [h1, ceil_div_self_mul _ _ (by norm_num)]
  have h2 : (32 - s % 32) * (31 - e % 32) * (ci.committee_size * 32000000000) +
      (e % 32 + 1) * get_total_active_balance ci =
      32 * (((32 - s % 32) * (31 - e % 32) + 32 * (e % 32 + 1)) *
        (ci.committee_size * 1000000000)) := by
    simp only [get_total_active_balance, SLOTS_PER_EPOCH, VALIDATOR_BALANCE]
    ring
  rw [h2, ceil_div_self_mul _ _ (by norm_num)]
  simp only [adjust_committee_weight_estimate_to_ensure_safety,
    COMMITTEE_WEIGHT_ESTIMATION_ADJUSTMENT_FACTOR]
  have h3 : ((32 - s % 32) * (31 - e % 32) + 32 * (e % 32 + 1)) *
      (ci.committee_size * 1000000000) * (1000 + 5) =
      1000 * (1005 * (((32 - s % 32) * (31 - e % 32) + 32 * (e % 32 + 1)) *
        (ci.committee_size * 1000000))) := by
    ring
  rw [h3, ceil_div_self_mul _ _ (by norm_num)]

/-- Committee weight when the full-coverage branch fires. -/
lemma cw_full (ci : ConfInfo) (s e : ℕ) (hse : s ≤ e)
    (hf : is_full_validator_set_covered s e = true) :
    get_committee_weight_between_slots ci s e = get_total_active_balance ci := by
  have hgt : ¬ s > e := by omega
  simp [get_committee_weight_between_slots, hf, hgt]

/-- A minimal snapshot carrying only a committee size, for weight-level
statements (the weight estimator reads nothing else). -/
def wci (cs : ℕ) : ConfInfo :=
  { nodes := [], justified_root := 0, finalized_root := 0, current_slot := 0,
    current_time_in_slot := 0, committee_size := cs }

/-- C4 counterexample: committee weight is not monotone in the end slot.
With committee size 1, the inflation-adjusted boundary-spanning estimate for
`[1, 62]` (= 1 028 115 000 000) exceeds the total active balance returned for
`[1, 63]` (= 1 024 000 000 000), so the value strictly drops as the end slot
grows from 62 to 63. -/
theorem committee_weight_monotone_cex :
    get_committee_weight_between_slots (wci 1) 1 63 <
      get_committee_weight_between_slots (wci 1) 1 62 := by decide

/-- C4 (amended): `committee_weight(s, e)` is zero when `s > e`, and is
monotonically non-decreasing as `e` increases with `s` fixed except possibly
at the single step where the range first fully covers an epoch (there the
inflation-adjusted boundary-spanning estimate may exceed the total active
balance, as the counterexample shows). -/
theorem committee_weight_zero_and_monotone_amended (ci : ConfInfo) (s e : ℕ) :
    (s > e → get_committee_weight_between_slots ci s e = 0) ∧
    ((is_full_validator_set_covered s e = true ∨
        is_full_validator_set_covered s (e + 1) = false) →
      get_committee_weight_between_slots ci s e ≤
        get_committee_weight_between_slots ci s (e + 1)) := by
  constructor
  · intro h
    simp [get_committee_weight_between_slots, h]
  · intro hc
    by_cases hse : s ≤ e
    case neg =>
      have h0 : get_committee_weight_between_slots ci s e = 0 := by
        simp [get_committee_weight_between_slots, show s > e by omega]
      simp [h0]
    case pos =>
      by_cases hf : is_full_validator_set_covered s e = true
      · have hf2 : is_full_validator_set_covered s (e + 1) = true := by
          rw [full_covered_iff] at hf ⊢
          omega
        rw [cw_full ci s e hse hf, cw_full ci s (e + 1) (by omega) hf2]
      · have hfb : is_full_validator_set_covered s e = false := by
          simpa using hf
        have hnp : ¬ (e / 32 > s / 32 + 1 ∨
            ((s % 32 = 0 ∨ (e + 1) % 32 = 0) ∧ s + 31 ≤ e)) := by
          rw [← full_covered_iff]
          simp [hfb]
        have hf2 : is_full_validator_set_covered s (e + 1) = false := by
          rcases hc with h | h
          · exact absurd h hf
          · exact h
        have hnp2 : ¬ ((e + 1) / 32 > s / 32 + 1 ∨
            ((s % 32 = 0 ∨ (e + 1 + 1) % 32 = 0) ∧ s + 31 ≤ e + 1)) := by
          rw [← full_covered_iff]
          simp [hf2]
        by_cases heq : s / 32 = e / 32
        · by_cases heq2 : s / 32 = (e + 1) / 32
          · rw [cw_same_epoch ci s e hse hfb heq,
              cw_same_epoch ci s (e + 1) (by omega) hf2 heq2]
            exact Nat.mul_le_mul_right _ (by omega)
          · -- e is the last slot of the epoch of s; e+1 starts the next epoch
            rw [cw_same_epoch ci s e hse hfb heq,
              cw_cross_epoch ci s (e + 1) (by omega) hf2 heq2]
            have h1 : (e - s + 1) * (ci.committee_size * 32000000000) =
                ((e - s + 1) * 32000) * (ci.committee_size * 1000000) := by ring
            have h2 : 1005 * (((32 - s % 32) * (31 - (e + 1) % 32) +
                32 * ((e + 1) % 32 + 1)) * (ci.committee_size * 1000000)) =
                (1005 * ((32 - s % 32) * (31 - (e + 1) % 32) +
                  32 * ((e + 1) % 32 + 1))) * (ci.committee_size * 1000000) := by ring
            rw [h1, h2]
            refine Nat.mul_le_mul_right _ ?_
            have hm0 : (e + 1) % 32 = 0 := by omega
            rw [hm0]
            omega
        · have hlt : s / 32 < e / 32 :=
            lt_of_le_of_ne (Nat.div_le_div_right hse) heq
          by_cases h32 : (e + 1) / 32 = e / 32
          · have heq2 : s / 32 ≠ (e + 1) / 32 := by omega
            rw [cw_cross_epoch ci s e hse hfb heq,
              cw_cross_epoch ci s (e + 1) (by omega) hf2 heq2]
            have hm : (e + 1) % 32 = e % 32 + 1 := by omega
            rw [hm]
            have hm30 : e % 32 ≤ 30 := by omega
            have expand : (32 - s % 32) * (31 - e % 32) =
                (32 - s % 32) * (31 - (e % 32 + 1)) + (32 - s % 32) := by
              have h31 : 31 - e % 32 = (31 - (e % 32 + 1)) + 1 := by omega
              rw [h31, Nat.mul_add, Nat.mul_one]
            gcongr 1005 * (?_ * _)
            rw [expand]
            have : 32 - s % 32 ≤ 32 := by omega
            omega
          · exfalso
            have : (e + 1) / 32 = e / 32 + 1 := by omega
            omega

/-- Witness for `committee_weight_zero_and_monotone_amended` at concrete
slot ranges. -/
theorem committee_weight_zero_and_monotone_amended_witness :
    get_committee_weight_between_slots (wci 1) 7 3 = 0 ∧
      get_committee_weight_between_slots (wci 1) 0 5 ≤
        get_committee_weight_between_slots (wci 1) 0 6 :=
  ⟨(committee_weight_zero_and_monotone_amended (wci 1) 7 3).1 (by decide),
   (committee_weight_zero_and_monotone_amended (wci 1) 0 5).2 (Or.inr (by decide))⟩

/-- Failure modes of the engine: `ordering` models the chronological-order
assertion of `update_confirmed_head`, `assertion` the current-epoch assertion
of `__is_ffg_confirmed`, `key` a Python `KeyError`/`IndexError` on a missing
root, and `fuel` nontermination of an unbounded walk. -/
inductive Err where
  | ordering
  | assertion
  | key
  | fuel
deriving DecidableEq, Repr

/-- `__is_one_lmd_confirmed`: the single-block LMD vote-weight test.
`byz` is `confirmation_byzantine_threshold`, `cur` is `self.current_slot`. -/
def is_one_lmd_confirmed (byz : ℚ) (cur : ℕ) (ci : ConfInfo) (root : ℕ) :
    Except Err Bool :=
  match look ci root with
  | none => .error .key
  | some node =>
    match look ci node.parent_root with
    | none => .error .key
    | some pnode =>
      let support := node.weight
      let maximum_support := get_committee_weight_between_slots ci (pnode.slot + 1) cur
      let ps := proposer_score ci
      let support_without_proposer_boost := (support : ℚ) - ps
      .ok (decide (100 * support_without_proposer_boost >
        50 * (maximum_support : ℚ) + 50 * ps + byz * 100 * (maximum_support : ℚ)))

/-- `__get_ancestor`: walk parent links while the node's slot exceeds
`target` (an `Int`, since checkpoint slots can be negative in Python),
returning the final node's `block_root` field. -/
def get_ancestor (ci : ConfInfo) (target : ℤ) : ℕ → ℕ → Except Err ℕ
  | 0, _ => .error .fuel
  | f + 1, root =>
    match look ci root with
    | none => .error .key
    | some node =>
      if (node.slot : ℤ) > target then get_ancestor ci target f node.parent_root
      else .ok node.block_root

/-- `__get_checkpoint_block`: ancestor at or below `epoch * SLOTS_PER_EPOCH`
(the epoch may be negative, e.g. `current_epoch - 2` in early epochs). -/
def get_checkpoint_block (ci : ConfInfo) (root : ℕ) (epoch : ℤ) (f : ℕ) :
    Except Err ℕ :=
  get_ancestor ci (epoch * (SLOTS_PER_EPOCH : ℤ)) f root

/-- `__get_checkpoint_ffg_support`: the checkpoint block of `root` for
`epoch` together with its FFG support (LMD weight minus proposer boost). -/
def get_checkpoint_ffg_support (ci : ConfInfo) (root : ℕ) (epoch : ℤ) (f : ℕ) :
    Except Err (ℕ × ℚ) :=
  match get_checkpoint_block ci root epoch f with
  | .error e => .error e
  | .ok checkpoint_root =>
    match look ci checkpoint_root with
    | none => .error .key
    | some node => .ok (checkpoint_root, (node.weight : ℚ) - proposer_score ci)

/-- `__is_ffg_confirmed`: the FFG checkpoint-justification test. Returns the
boolean outcome together with the new value of the engine's
`ffg_confirmed_checkpoint` (its side effect); `cp` is the current value. -/
def is_ffg_confirmed (byz slash : ℚ) (cur : ℕ) (cp : Option ℕ) (ci : ConfInfo)
    (root : ℕ) (f : ℕ) : Except Err (Bool × Option ℕ) :=
  match look ci root with
  | none => .error .key
  | some node =>
    let block_epoch := compute_epoch_at_slot node.slot
    let current_epoch := compute_epoch_at_slot cur
    if block_epoch ≠ current_epoch then .error .assertion
    else
      match get_checkpoint_ffg_support ci root (block_epoch : ℤ) f with
      | .error e => .error e
      | .ok (checkpoint_root, checkpoint_ffg_support) =>
        let total_validators_weight := get_total_active_balance ci
        let remaining_weight_in_epoch := get_remaining_weight_in_epoch cur ci
        let max_adversarial_ffg_support :=
          pymin (pymin (byz * ((total_validators_weight : ℚ) - (remaining_weight_in_epoch : ℚ)))
            (slash * (total_validators_weight : ℚ))) checkpoint_ffg_support
        let is_conf := decide (ffg_required_weight ci ≤
          checkpoint_ffg_support - max_adversarial_ffg_support +
            (1 - byz) * (remaining_weight_in_epoch : ℚ))
        .ok (is_conf,
          if is_conf ∧ (cur + 1) % SLOTS_PER_EPOCH = 0 then some checkpoint_root else cp)

/-- `__is_lmd_confirmed`: recursive LMD confirmation. `chr` is the engine's
`confirmed_head_root` (a fast-path base case besides the finalized root). -/
def is_lmd_confirmed (byz : ℚ) (cur : ℕ) (chr : Option ℕ) (ci : ConfInfo) :
    ℕ → ℕ → Except Err Bool
  | 0, _ => .error .fuel
  | f + 1, root =>
    match look ci root with
    | none => .error .key
    | some node =>
      if ci.finalized_root = root ∨ chr = some root then .ok true
      else
        match is_one_lmd_confirmed byz cur ci root with
        | .error e => .error e
        | .ok b =>
          if b then is_lmd_confirmed byz cur chr ci f node.parent_root else .ok false

/-- `__is_confirmed`: combined LMD+FFG confirmation of one block, by epoch
offset from the current epoch. Mirrors the Python evaluation order: the block
lookup and the second-highest checkpoint precede the branch dispatch, the LMD
check is computed eagerly, and the FFG check runs only when the earlier
conjuncts hold (its checkpoint side effect is threaded through `cp`). -/
def is_confirmed (byz slash : ℚ) (cur : ℕ) (chr cp : Option ℕ) (ci : ConfInfo)
    (root : ℕ) (f : ℕ) : Except Err (Bool × Option ℕ) :=
  let current_epoch := compute_epoch_at_slot cur
  match look ci root with
  | none => .error .key
  | some node =>
    let block_epoch := compute_epoch_at_slot node.slot
    if ci.finalized_root = root ∨ chr = some root then .ok (true, cp)
    else
      match get_checkpoint_block ci root ((current_epoch : ℤ) - 1) f with
      | .error e => .error e
      | .ok second_highest_checkpoint_root =>
        if block_epoch = current_epoch then
          match is_lmd_confirmed byz cur chr ci f root with
          | .error e => .error e
          | .ok lmd =>
            if (second_highest_checkpoint_root = ci.justified_root ∨
                second_highest_checkpoint_root = ci.finalized_root) ∧ lmd then
              is_ffg_confirmed byz slash cur cp ci root f
            else .ok (false, cp)
        else if (block_epoch : ℤ) = (current_epoch : ℤ) - 1 then
          if second_highest_checkpoint_root = ci.finalized_root then
            match is_lmd_confirmed byz cur chr ci f root with
            | .error e => .error e
            | .ok lmd => .ok (lmd, cp)
          else
            match get_checkpoint_block ci root ((current_epoch : ℤ) - 2) f with
            | .error e => .error e
            | .ok third_highest_checkpoint_root =>
              match is_lmd_confirmed byz cur chr ci f root with
              | .error e => .error e
              | .ok lmd =>
                .ok (decide (cp = some second_highest_checkpoint_root) &&
                  (decide (second_highest_checkpoint_root = ci.justified_root) &&
                    (lmd && decide (third_highest_checkpoint_root = ci.finalized_root))), cp)
        else .ok (false, cp)

/-- `__find_confirmed_block_head`: walk parent links from `root` down to the
first confirmed block, threading the `ffg_confirmed_checkpoint` value. -/
def find_confirmed_block_head (byz slash : ℚ) (cur : ℕ) (chr : Option ℕ)
    (ci : ConfInfo) : ℕ → Option ℕ → ℕ → Except Err (ℕ × Option ℕ)
  | 0, _, _ => .error .fuel
  | f + 1, cp, root =>
    match is_confirmed byz slash cur chr cp ci root f with
    | .error e => .error e
    | .ok (true, cp2) => .ok (root, cp2)
    | .ok (false, cp2) =>
      match look ci root with
      | none => .error .key
      | some node => find_confirmed_block_head byz slash cur chr ci f cp2 node.parent_root

/-- `__find_head_root`: the last node (in dict insertion order) of maximal
slot, as selected by Python's stable ascending sort followed by `[-1]`. -/
def find_head_root (ci : ConfInfo) : Except Err ℕ :=
  match ci.nodes with
  | [] => .error .key
  | x :: xs =>
    .ok (xs.foldl (fun best p => if p.2.slot ≥ best.2.slot then p else best) x).1

/-- Loop body of `__compute_conf_times`: `curRoot`/`preSlot` mirror
`cur_root`/`pre_slot`; accumulates the returned confirmation times and the
slots appended to `empty_or_forked_slots`. -/
def conf_times_go (oldRoot : Option ℕ) (oldSlot cur t : ℕ) (ci : ConfInfo) :
    ℕ → ℕ → ℕ → List ℤ → List ℕ → Except Err (List ℤ × List ℕ)
  | 0, _, _, _, _ => .error .fuel
  | f + 1, curRoot, preSlot, times, empties =>
    if oldRoot = some curRoot then
      .ok (times, empties ++ List.range' (oldSlot + 1) (preSlot - oldSlot - 1))
    else
      match look ci curRoot with
      | none => .error .key
      | some node =>
        if node.slot ≤ oldSlot then
          -- reorg of the confirmed chain: Python logs an error and breaks
          .ok (times, empties ++ List.range' (oldSlot + 1) (preSlot - oldSlot - 1))
        else
          let empties2 := empties ++ List.range' (node.slot + 1) (preSlot - node.slot - 1)
          let time : ℤ := ((cur : ℤ) - (node.slot : ℤ)) * (SLOT_LEN : ℤ) + (t : ℤ)
          conf_times_go oldRoot oldSlot cur t ci f node.parent_root node.slot
            (times ++ [time]) empties2

/-- `__compute_conf_times`: confirmation times of the newly confirmed blocks
from the new head down to the old confirmed head, together with the slots
recorded as empty-or-forked along the way. -/
def compute_conf_times (oldRoot : Option ℕ) (oldSlot cur t : ℕ) (ci : ConfInfo)
    (newHead : ℕ) (f : ℕ) : Except Err (List ℤ × List ℕ) :=
  match look ci newHead with
  | none => .error .key
  | some node => conf_times_go oldRoot oldSlot cur t ci f newHead node.slot [] []

/-- The engine state of a `ConfRule` object (constructor thresholds plus the
mutable fields; the diagnostic logger is not modelled). -/
structure CState where
  byz : ℚ
  slash : ℚ
  empty_or_forked_slots : List ℕ
  confirmed_head_root : Option ℕ
  confirmed_head_slot : ℕ
  ffg_confirmed_checkpoint : Option ℕ
  current_slot : ℕ
  time_in_current_slot : ℕ
  times_from_confirmed_head : List ℤ
  conf_times : List ℤ
  processed_slots : Finset ℕ
deriving DecidableEq

/-- `__get_time_from_last_confirmed_block`, appended at the end of every
successful `update_confirmed_head`. -/
def time_from_last_confirmed_block (s : CState) : ℤ :=
  ((s.current_slot : ℤ) - (s.confirmed_head_slot : ℤ)) * (SLOT_LEN : ℤ) +
    (s.time_in_current_slot : ℤ)

/-- Appends `__get_time_from_last_confirmed_block` (line 86) and returns. -/
def finish_update (s : CState) : Except Err CState :=
  .ok { s with times_from_confirmed_head :=
    s.times_from_confirmed_head ++ [time_from_last_confirmed_block s] }

/-- `update_confirmed_head`: the single public transition of the engine. -/
def update_confirmed_head (st : CState) (ci : ConfInfo) (f : ℕ) :
    Except Err CState :=
  let c := ci.current_slot
  if ¬ st.current_slot ≤ c then .error .ordering
  else
    let record_conf_time := ¬ (st.current_slot + 1 < c)
    let st1 := { st with
      current_slot := c,
      time_in_current_slot := ci.current_time_in_slot,
      processed_slots := insert c st.processed_slots }
    match find_head_root ci with
    | .error e => .error e
    | .ok head_root =>
      match find_confirmed_block_head st.byz st.slash c st.confirmed_head_root ci f
          st.ffg_confirmed_checkpoint head_root with
      | .error e => .error e
      | .ok (confirmed_head_root, cp2) =>
        match look ci confirmed_head_root with
        | none => .error .key
        | some chnode =>
          let confirmed_head_slot := chnode.slot
          let st2 := { st1 with ffg_confirmed_checkpoint := cp2 }
          if confirmed_head_slot > st.confirmed_head_slot then
            if record_conf_time then
              match compute_conf_times st.confirmed_head_root st.confirmed_head_slot c
                  ci.current_time_in_slot ci confirmed_head_root f with
              | .error e => .error e
              | .ok (ts, es) =>
                finish_update { st2 with
                  conf_times := st2.conf_times ++ ts,
                  empty_or_forked_slots := st2.empty_or_forked_slots ++ es,
                  confirmed_head_root := some confirmed_head_root,
                  confirmed_head_slot := confirmed_head_slot }
            else
              finish_update { st2 with
                confirmed_head_root := some confirmed_head_root,
                confirmed_head_slot := confirmed_head_slot }
          else finish_update st2

/-- Sequential application of a batch of snapshots (the analysis loop that
feeds `update_confirmed_head` one snapshot at a time, aborting on failure). -/
def apply_snapshots (f : ℕ) : CState → List ConfInfo → Except Err CState
  | st, [] => .ok st
  | st, ci :: rest =>
    match update_confirmed_head st ci f with
    | .error e => .error e
    | .ok st2 => apply_snapshots f st2 rest

/-- The freshly constructed engine state (`__init__`). -/
def init_state (byz slash : ℚ) : CState :=
  { byz := byz, slash := slash, empty_or_forked_slots := [],
    confirmed_head_root := none, confirmed_head_slot := 0,
    ffg_confirmed_checkpoint := none, current_slot := 0,
    time_in_current_slot := 0, times_from_confirmed_head := [],
    conf_times := [], processed_slots := ∅ }

/-! Error classification: which failure modes each operation can produce. -/

lemma get_ancestor_err (ci : ConfInfo) (t : ℤ) :
    ∀ f root e, get_ancestor ci t f root = .error e → e = .key ∨ e = .fuel := by
  intro f
  induction f with
  | zero =>
    intro root e h
    simp only [get_ancestor] at h
    exact Or.inr (by injection h with h2; exact h2.symm)
  | succ n ih =>
    intro root e h
    simp only [get_ancestor] at h
    split at h
    · exact Or.inl (by injection h; simp_all)
    · split at h
      · exact ih _ _ h
      · simp at h

lemma is_one_lmd_confirmed_err (byz : ℚ) (cur : ℕ) (ci : ConfInfo) (root : ℕ)
    (e : Err) (h : is_one_lmd_confirmed byz cur ci root = .error e) : e = .key := by
  simp only [is_one_lmd_confirmed] at h
  split at h
  · injection h; simp_all
  · split at h
    · injection h; simp_all
    · simp at h

lemma get_checkpoint_ffg_support_err (ci : ConfInfo) (root : ℕ) (ep : ℤ) (f : ℕ)
    (e : Err) (h : get_checkpoint_ffg_support ci root ep f = .error e) :
    e = .key ∨ e = .fuel := by
  simp only [get_checkpoint_ffg_support] at h
  split at h
  · rename_i e2 he
    injection h with h2
    exact h2 ▸ get_ancestor_err ci _ f root e2 he
  · split at h
    · exact Or.inl (by injection h; simp_all)
    · simp at h

lemma is_ffg_confirmed_err (byz slash : ℚ) (cur : ℕ) (cp : Option ℕ) (ci : ConfInfo)
    (root : ℕ) (f : ℕ) (e : Err) (h : is_ffg_confirmed byz slash cur cp ci root f = .error e) :
    e = .key ∨ e = .fuel ∨ e = .assertion := by
  simp only [is_ffg_confirmed] at h
  split at h
  · injection h; simp_all
  · split at h
    · exact Or.inr (Or.inr (by injection h; simp_all))
    · split at h
      · rename_i e2 he
        injection h with h2
        rcases get_checkpoint_ffg_support_err ci root _ f e2 he with h3 | h3 <;>
          subst h2 <;> simp [h3]
      · simp at h

/-- The current-epoch assertion of `__is_ffg_confirmed` passes whenever the
block's epoch equals the current epoch. -/
lemma is_ffg_confirmed_no_assertion (byz slash : ℚ) (cur : ℕ) (cp : Option ℕ)
    (ci : ConfInfo) (root : ℕ) (f : ℕ) (node : Node) (hl : look ci root = some node)
    (hE : compute_epoch_at_slot node.slot = compute_epoch_at_slot cur) :
    is_ffg_confirmed byz slash cur cp ci root f ≠ .error .assertion := by
  intro h
  simp only [is_ffg_confirmed, hl] at h
  rw [if_neg (by simp [hE])] at h
  split at h
  · rename_i e2 he
    injection h with h2
    rcases get_checkpoint_ffg_support_err ci root _ f e2 he with h3 | h3 <;> simp_all
  · simp at h

lemma is_lmd_confirmed_err (byz : ℚ) (cur : ℕ) (chr : Option ℕ) (ci : ConfInfo) :
    ∀ f root e, is_lmd_confirmed byz cur chr ci f root = .error e →
      e = .key ∨ e = .fuel := by
  intro f
  induction f with
  | zero =>
    intro root e h
    simp only [is_lmd_confirmed] at h
    exact Or.inr (by injection h; simp_all)
  | succ n ih =>
    intro root e h
    simp only [is_lmd_confirmed] at h
    split at h
    · exact Or.inl (by injection h; simp_all)
    · split at h
      · simp at h
      · split at h
        · rename_i e2 he
          exact Or.inl (by injection h with h2; exact h2 ▸ is_one_lmd_confirmed_err _ _ _ _ _ he)
        · split at h
          · exact ih _ _ h
          · simp at h

lemma is_confirmed_err (byz slash : ℚ) (cur : ℕ) (chr cp : Option ℕ) (ci : ConfInfo)
    (root : ℕ) (f : ℕ) (e : Err) (h : is_confirmed byz slash cur chr cp ci root f = .error e) :
    e = .key ∨ e = .fuel := by
  simp only [is_confirmed] at h
  split at h
  · exact Or.inl (by injection h with h2; exact h2.symm)
  · rename Node => node
    rename look ci root = some node => hnode
    split at h
    · simp at h
    · split at h
      · rename_i e2 he
        injection h with h2
        exact h2 ▸ get_ancestor_err ci _ f root e2 he
      · split at h
        · -- current-epoch branch
          rename compute_epoch_at_slot node.slot = compute_epoch_at_slot cur => hepoch
          split at h
          · rename_i e2 he
            injection h with h2
            exact h2 ▸ is_lmd_confirmed_err byz cur chr ci f root e2 he
          · split at h
            · rcases is_ffg_confirmed_err byz slash cur cp ci root f e h with h3 | h3 | h3
              · exact Or.inl h3
              · exact Or.inr h3
              · exact absurd (h3 ▸ h)
                  (is_ffg_confirmed_no_assertion byz slash cur cp ci root f node hnode hepoch)
            · simp at h
        · -- previous-epoch or older branch
          split at h
          · split at h
            · -- second checkpoint finalized: only the LMD check runs
              split at h
              · rename_i e2 he
                injection h with h2
                exact h2 ▸ is_lmd_confirmed_err byz cur chr ci f root e2 he
              · simp at h
            · split at h
              · rename_i e2 he
                injection h with h2
                exact h2 ▸ get_ancestor_err ci _ f root e2 he
              · split at h
                · rename_i e2 he
                  injection h with h2
                  exact h2 ▸ is_lmd_confirmed_err byz cur chr ci f root e2 he
                · simp at h
          · simp at h

lemma find_confirmed_block_head_err (byz slash : ℚ) (cur : ℕ) (chr : Option ℕ)
    (ci : ConfInfo) : ∀ f cp root e,
      find_confirmed_block_head byz slash cur chr ci f cp root = .error e →
        e = .key ∨ e = .fuel := by
  intro f
  induction f with
  | zero =>
    intro cp root e h
    simp only [find_confirmed_block_head] at h
    exact Or.inr (by injection h with h2; exact h2.symm)
  | succ n ih =>
    intro cp root e h
    simp only [find_confirmed_block_head] at h
    split at h
    · rename_i e2 he
      injection h with h2
      exact h2 ▸ is_confirmed_err byz slash cur chr cp ci root n e2 he
    · simp at h
    · split at h
      · exact Or.inl (by injection h with h2; exact h2.symm)
      · exact ih _ _ _ h

lemma conf_times_go_err (oldRoot : Option ℕ) (oldSlot cur t : ℕ) (ci : ConfInfo) :
    ∀ f curRoot preSlot times empties e,
      conf_times_go oldRoot oldSlot cur t ci f curRoot preSlot times empties = .error e →
        e = .key ∨ e = .fuel := by
  intro f
  induction f with
  | zero =>
    intro curRoot preSlot times empties e h
    simp only [conf_times_go] at h
    exact Or.inr (by injection h with h2; exact h2.symm)
  | succ n ih =>
    intro curRoot preSlot times empties e h
    simp only [conf_times_go] at h
    split at h
    · simp at h
    · split at h
      · exact Or.inl (by injection h with h2; exact h2.symm)
      · split at h
        · simp at h
        · exact ih _ _ _ _ _ h

lemma compute_conf_times_err (oldRoot : Option ℕ) (oldSlot cur t : ℕ) (ci : ConfInfo)
    (newHead f : ℕ) (e : Err)
    (h : compute_conf_times oldRoot oldSlot cur t ci newHead f = .error e) :
    e = .key ∨ e = .fuel := by
  simp only [compute_conf_times] at h
  split at h
  · exact Or.inl (by injection h with h2; exact h2.symm)
  · exact conf_times_go_err oldRoot oldSlot cur t ci f _ _ _ _ e h

lemma find_head_root_err (ci : ConfInfo) (e : Err) (h : find_head_root ci = .error e) :
    e = .key := by
  simp only [find_head_root] at h
  split at h
  · injection h with h2; exact h2.symm
  · simp at h

/-- Errors of `update_confirmed_head`: the ordering violation fires exactly
when the snapshot's slot precedes the engine's stored slot, and any other
failure is a missing key or nontermination. -/
lemma update_confirmed_head_err (st : CState) (ci : ConfInfo) (f : ℕ) (e : Err)
    (h : update_confirmed_head st ci f = .error e) :
    (e = .ordering ∧ ci.current_slot < st.current_slot) ∨ e = .key ∨ e = .fuel := by
  simp only [update_confirmed_head] at h
  split at h
  · exact Or.inl ⟨by injection h with h2; exact h2.symm, by omega⟩
  · split at h
    · rename_i e2 he
      injection h with h2
      exact Or.inr (Or.inl (h2 ▸ find_head_root_err ci e2 he))
    · split at h
      · rename_i e2 he
        injection h with h2
        exact Or.inr (h2 ▸ find_confirmed_block_head_err _ _ _ _ ci f _ _ e2 he)
      · split at h
        · exact Or.inr (Or.inl (by injection h with h2; exact h2.symm))
        · split at h
          · split at h
            · split at h
              · rename_i e2 he
                injection h with h2
                exact Or.inr (h2 ▸ compute_conf_times_err _ _ _ _ ci _ f e2 he)
              · simp [finish_update] at h
            · simp [finish_update] at h
          · simp [finish_update] at h

/-! Fuel monotonicity: a result obtained with some fuel persists with more
fuel, hence any two successful evaluations agree. -/

lemma get_ancestor_mono (ci : ConfInfo) (t : ℤ) :
    ∀ f f2 root v, f ≤ f2 → get_ancestor ci t f root = .ok v →
      get_ancestor ci t f2 root = .ok v := by
  intro f
  induction f with
  | zero =>
    intro f2 root v _ h
    simp [get_ancestor] at h
  | succ n ih =>
    intro f2 root v hle h
    obtain ⟨m, rfl⟩ : ∃ m, f2 = m + 1 := ⟨f2 - 1, by omega⟩
    simp only [get_ancestor] at h ⊢
    split at h
    · simp at h
    · split at h
      · rename_i hgt
        rw [if_pos hgt]
        exact ih m _ _ (by omega) h
      · rename_i hgt
        rw [if_neg hgt]
        exact h

lemma is_lmd_confirmed_mono (byz : ℚ) (cur : ℕ) (chr : Option ℕ) (ci : ConfInfo) :
    ∀ f f2 root v, f ≤ f2 → is_lmd_confirmed byz cur chr ci f root = .ok v →
      is_lmd_confirmed byz cur chr ci f2 root = .ok v := by
  intro f
  induction f with
  | zero =>
    intro f2 root v _ h
    simp [is_lmd_confirmed] at h
  | succ n ih =>
    intro f2 root v hle h
    obtain ⟨m, rfl⟩ : ∃ m, f2 = m + 1 := ⟨f2 - 1, by omega⟩
    simp only [is_lmd_confirmed] at h ⊢
    split at h
    · simp at h
    · split at h
      · rename_i hfast
        rw [if_pos hfast]
        exact h
      · rename_i hfast
        rw [if_neg hfast]
        split at h
        · simp at h
        · split at h
          · rename_i hbt
            rw [if_pos hbt]
            exact ih m _ _ (by omega) h
          · rename_i hbt
            rw [if_neg hbt]
            exact h

lemma get_checkpoint_ffg_support_mono (ci : ConfInfo) (root : ℕ) (ep : ℤ)
    (f f2 : ℕ) (v : ℕ × ℚ) (hle : f ≤ f2)
    (h : get_checkpoint_ffg_support ci root ep f = .ok v) :
    get_checkpoint_ffg_support ci root ep f2 = .ok v := by
  simp only [get_checkpoint_ffg_support, get_checkpoint_block] at h ⊢
  split at h
  · simp at h
  · rename_i cr hcr
    rw [get_ancestor_mono ci _ f f2 root cr hle hcr]
    simp only []
    exact h

lemma is_ffg_confirmed_mono (byz slash : ℚ) (cur : ℕ) (cp : Option ℕ) (ci : ConfInfo)
    (f f2 root : ℕ) (v : Bool × Option ℕ) (hle : f ≤ f2)
    (h : is_ffg_confirmed byz slash cur cp ci root f = .ok v) :
    is_ffg_confirmed byz slash cur cp ci root f2 = .ok v := by
  simp only [is_ffg_confirmed] at h ⊢
  split at h
  · simp at h
  · split at h
    · simp at h
    · rename_i hassert
      rw [if_neg hassert]
      split at h
      · simp at h
      · rename_i cr sup hsup
        rw [get_checkpoint_ffg_support_mono ci root _ f f2 (cr, sup) hle hsup]
        simp only []
        exact h

lemma is_confirmed_mono (byz slash : ℚ) (cur : ℕ) (chr cp : Option ℕ) (ci : ConfInfo)
    (f f2 root : ℕ) (v : Bool × Option ℕ) (hle : f ≤ f2)
    (h : is_confirmed byz slash cur chr cp ci root f = .ok v) :
    is_confirmed byz slash cur chr cp ci root f2 = .ok v := by
  simp only [is_confirmed] at h ⊢
  split at h
  · simp at h
  · split at h
    · rename_i hfast
      rw [if_pos hfast]
      exact h
    · rename_i hfast
      rw [if_neg hfast]
      split at h
      · simp at h
      · rename_i second hsecond
        rw [get_checkpoint_block] at hsecond ⊢
        rw [get_ancestor_mono ci _ f f2 root second hle hsecond]
        simp only []
        split at h
        · rename_i hepoch
          rw [if_pos hepoch]
          split at h
          · simp at h
          · rename_i lmd hlmd
            rw [is_lmd_confirmed_mono byz cur chr ci f f2 root lmd hle hlmd]
            simp only []
            split at h
            · rename_i hguard
              rw [if_pos hguard]
              exact is_ffg_confirmed_mono byz slash cur cp ci f f2 root v hle h
            · rename_i hguard
              rw [if_neg hguard]
              exact h
        · rename_i hepoch
          rw [if_neg hepoch]
          split at h
          · rename_i hprev
            rw [if_pos hprev]
            split at h
            · rename_i hfin
              rw [if_pos hfin]
              split at h
              · simp at h
              · rename_i lmd hlmd
                rw [is_lmd_confirmed_mono byz cur chr ci f f2 root lmd hle hlmd]
                simp only []
                exact h
            · rename_i hfin
              rw [if_neg hfin]
              split at h
              · simp at h
              · rename_i third hthird
                rw [get_checkpoint_block] at hthird ⊢
                rw [get_ancestor_mono ci _ f f2 root third hle hthird]
                simp only []
                split at h
                · simp at h
                · rename_i lmd hlmd
                  rw [is_lmd_confirmed_mono byz cur chr ci f f2 root lmd hle hlmd]
                  simp only []
                  exact h
          · rename_i hprev
            rw [if_neg hprev]
            exact h

lemma is_confirmed_det (byz slash : ℚ) (cur : ℕ) (chr cp : Option ℕ) (ci : ConfInfo)
    (f f2 root : ℕ) (v v2 : Bool × Option ℕ)
    (h : is_confirmed byz slash cur chr cp ci root f = .ok v)
    (h2 : is_confirmed byz slash cur chr cp ci root f2 = .ok v2) : v = v2 := by
  rcases le_total f f2 with hle | hle
  · have h4 := is_confirmed_mono byz slash cur chr cp ci f f2 root v hle h
    rw [h4] at h2
    exact Except.ok.inj h2
  · have h4 := is_confirmed_mono byz slash cur chr cp ci f2 f root v2 hle h2
    rw [h4] at h
    exact (Except.ok.inj h).symm

lemma is_lmd_confirmed_det (byz : ℚ) (cur : ℕ) (chr : Option ℕ) (ci : ConfInfo)
    (f f2 root : ℕ) (v v2 : Bool)
    (h : is_lmd_confirmed byz cur chr ci f root = .ok v)
    (h2 : is_lmd_confirmed byz cur chr ci f2 root = .ok v2) : v = v2 := by
  rcases le_total f f2 with hle | hle
  · have h4 := is_lmd_confirmed_mono byz cur chr ci f f2 root v hle h
    rw [h4] at h2
    exact Except.ok.inj h2
  · have h4 := is_lmd_confirmed_mono byz cur chr ci f2 f root v2 hle h2
    rw [h4] at h
    exact (Except.ok.inj h).symm

lemma get_ancestor_det (ci : ConfInfo) (t : ℤ) (f f2 root : ℕ) (v v2 : ℕ)
    (h : get_ancestor ci t f root = .ok v)
    (h2 : get_ancestor ci t f2 root = .ok v2) : v = v2 := by
  rcases le_total f f2 with hle | hle
  · have h4 := get_ancestor_mono ci t f f2 root v hle h
    rw [h4] at h2
    exact Except.ok.inj h2
  · have h4 := get_ancestor_mono ci t f2 f root v2 hle h2
    rw [h4] at h
    exact (Except.ok.inj h).symm

/-! Structure of a successful confirmed-head walk. -/

lemma is_ffg_confirmed_false_cp (byz slash : ℚ) (cur : ℕ) (cp : Option ℕ)
    (ci : ConfInfo) (root f : ℕ) (cp2 : Option ℕ)
    (h : is_ffg_confirmed byz slash cur cp ci root f = .ok (false, cp2)) : cp2 = cp := by
  simp only [is_ffg_confirmed] at h
  split at h
  · simp at h
  · split at h
    · simp at h
    · split at h
      · simp at h
      · rename_i cr sup hsup
        injection h with h2
        have hb := congrArg Prod.fst h2
        have hc := congrArg Prod.snd h2
        simp only at hb hc
        rw [← hc]
        exact if_neg (by simp [hb])

lemma is_ffg_confirmed_stable (byz slash : ℚ) (cur : ℕ) (cp : Option ℕ)
    (ci : ConfInfo) (root f : ℕ) (b : Bool) (x : Option ℕ)
    (h : is_ffg_confirmed byz slash cur cp ci root f = .ok (b, x)) :
    is_ffg_confirmed byz slash cur x ci root f = .ok (b, x) := by
  simp only [is_ffg_confirmed] at h ⊢
  split at h
  · simp at h
  · split at h
    · simp at h
    · rename_i hassert
      rw [if_neg hassert]
      split at h
      · simp at h
      · rename_i cr sup hsup
        injection h with h2
        have hb := congrArg Prod.fst h2
        have hc := congrArg Prod.snd h2
        simp only at hb hc
        subst hb
        split at hc
        · rename_i hcond
          rw [if_pos hcond]
          rw [hc]
        · rename_i hcond
          rw [if_neg hcond]

lemma is_ffg_confirmed_cp_indep (byz slash : ℚ) (cur : ℕ) (cp : Option ℕ)
    (ci : ConfInfo) (root f : ℕ) (b : Bool) (x : Option ℕ) (cp2 : Option ℕ)
    (h : is_ffg_confirmed byz slash cur cp ci root f = .ok (b, x)) :
    ∃ x2, is_ffg_confirmed byz slash cur cp2 ci root f = .ok (b, x2) := by
  simp only [is_ffg_confirmed] at h ⊢
  split at h
  · simp at h
  · split at h
    · simp at h
    · rename_i hassert
      rw [if_neg hassert]
      split at h
      · simp at h
      · rename_i cr sup hsup
        injection h with h2
        have hb := congrArg Prod.fst h2
        simp only at hb
        subst hb
        exact ⟨_, rfl⟩

lemma is_ffg_confirmed_cp_changed (byz slash : ℚ) (cur : ℕ) (cp : Option ℕ)
    (ci : ConfInfo) (root f : ℕ) (b : Bool) (x : Option ℕ)
    (h : is_ffg_confirmed byz slash cur cp ci root f = .ok (b, x)) (_hx : x ≠ cp) :
    ∃ node, look ci root = some node ∧
      compute_epoch_at_slot node.slot = compute_epoch_at_slot cur := by
  simp only [is_ffg_confirmed] at h
  split at h
  · simp at h
  · rename_i node hnode
    split at h
    · simp at h
    · rename_i hassert
      exact ⟨node, hnode, by omega⟩

lemma is_confirmed_false_cp (byz slash : ℚ) (cur : ℕ) (chr cp : Option ℕ)
    (ci : ConfInfo) (root f : ℕ) (cp2 : Option ℕ)
    (h : is_confirmed byz slash cur chr cp ci root f = .ok (false, cp2)) : cp2 = cp := by
  simp only [is_confirmed] at h
  split at h
  · simp at h
  · split at h
    · simp at h
    · split at h
      · simp at h
      · split at h
        · split at h
          · simp at h
          · split at h
            · exact is_ffg_confirmed_false_cp byz slash cur cp ci root f cp2 h
            · injection h with h2
              exact (congrArg Prod.snd h2).symm
        · split at h
          · split at h
            · split at h
              · simp at h
              · injection h with h2
                exact (congrArg Prod.snd h2).symm
            · split at h
              · simp at h
              · split at h
                · simp at h
                · injection h with h2
                  exact (congrArg Prod.snd h2).symm
          · injection h with h2
            exact (congrArg Prod.snd h2).symm

lemma is_confirmed_false_not_fast (byz slash : ℚ) (cur : ℕ) (chr cp : Option ℕ)
    (ci : ConfInfo) (root f : ℕ) (cp2 : Option ℕ)
    (h : is_confirmed byz slash cur chr cp ci root f = .ok (false, cp2)) :
    ¬ (ci.finalized_root = root ∨ chr = some root) := by
  simp only [is_confirmed] at h
  split at h
  · simp at h
  · split at h
    · rename_i hfast
      simp at h
    · rename_i hfast
      exact hfast

lemma is_confirmed_ok_look (byz slash : ℚ) (cur : ℕ) (chr cp : Option ℕ)
    (ci : ConfInfo) (root f : ℕ) (v : Bool × Option ℕ)
    (h : is_confirmed byz slash cur chr cp ci root f = .ok v) :
    ∃ node, look ci root = some node := by
  simp only [is_confirmed] at h
  split at h
  · simp at h
  · rename_i node hnode
    exact ⟨node, hnode⟩

lemma is_confirmed_cp_changed (byz slash : ℚ) (cur : ℕ) (chr cp : Option ℕ)
    (ci : ConfInfo) (root f : ℕ) (b : Bool) (x : Option ℕ)
    (h : is_confirmed byz slash cur chr cp ci root f = .ok (b, x)) (hx : x ≠ cp) :
    ∃ node, look ci root = some node ∧
      compute_epoch_at_slot node.slot = compute_epoch_at_slot cur := by
  simp only [is_confirmed] at h
  split at h
  · simp at h
  · rename_i node hnode
    split at h
    · injection h with h2
      exact absurd (congrArg Prod.snd h2).symm hx
    · split at h
      · simp at h
      · split at h
        · split at h
          · simp at h
          · split at h
            · exact is_ffg_confirmed_cp_changed byz slash cur cp ci root f b x h hx
            · injection h with h2
              exact absurd (congrArg Prod.snd h2).symm hx
        · split at h
          · split at h
            · split at h
              · simp at h
              · injection h with h2
                exact absurd (congrArg Prod.snd h2).symm hx
            · split at h
              · simp at h
              · split at h
                · simp at h
                · injection h with h2
                  exact absurd (congrArg Prod.snd h2).symm hx
          · injection h with h2
            exact absurd (congrArg Prod.snd h2).symm hx

/-- A confirmed block implies an LMD-confirmation certificate at some fuel:
every confirming branch of `__is_confirmed` either takes the fast path
(making `__is_lmd_confirmed` true immediately) or has just evaluated the
LMD check to true. -/
lemma is_confirmed_true_lmd (byz slash : ℚ) (cur : ℕ) (chr cp : Option ℕ)
    (ci : ConfInfo) (root f : ℕ) (cpOut : Option ℕ)
    (h : is_confirmed byz slash cur chr cp ci root f = .ok (true, cpOut)) :
    ∃ fH, is_lmd_confirmed byz cur chr ci fH root = .ok true := by
  simp only [is_confirmed] at h
  split at h
  · simp at h
  · rename_i node2 hnode2
    split at h
    · rename_i hfast
      refine ⟨1, ?_⟩
      simp only [is_lmd_confirmed, hnode2]
      rw [if_pos hfast]
    · rename_i hfast
      split at h
      · simp at h
      · split at h
        · -- current epoch: the guard evaluated the LMD check
          split at h
          · simp at h
          · rename_i lmd hlmd
            split at h
            · rename_i hguard
              exact ⟨f, by rw [hlmd, hguard.2]⟩
            · simp at h
        · split at h
          · -- previous epoch
            split at h
            · -- second checkpoint finalized: result is the LMD value
              split at h
              · simp at h
              · rename_i lmd hlmd
                injection h with h2
                have hb := congrArg Prod.fst h2
                simp only at hb
                exact ⟨f, by rw [hlmd, hb]⟩
            · -- full conjunction includes the LMD value
              split at h
              · simp at h
              · split at h
                · simp at h
                · rename_i lmd hlmd
                  injection h with h2
                  have hb := congrArg Prod.fst h2
                  simp only [Bool.and_eq_true, decide_eq_true_eq] at hb
                  exact ⟨f, by rw [hlmd, hb.2.2.1]⟩
          · simp at h

/-- The sequence of blocks visited by `__find_confirmed_block_head`: each
visited block is not confirmed (leaving the checkpoint untouched), linked by
parent pointers, ending at the first confirmed block. -/
inductive Visits (byz slash : ℚ) (cur : ℕ) (chr : Option ℕ) (ci : ConfInfo)
    (cp : Option ℕ) : ℕ → ℕ → Option ℕ → Prop
  | stop (root : ℕ) (cpOut : Option ℕ) (f : ℕ)
      (h : is_confirmed byz slash cur chr cp ci root f = .ok (true, cpOut)) :
      Visits byz slash cur chr ci cp root root cpOut
  | step (root res : ℕ) (node : Node) (cpOut : Option ℕ) (f : ℕ)
      (hc : is_confirmed byz slash cur chr cp ci root f = .ok (false, cp))
      (hl : look ci root = some node)
      (hrest : Visits byz slash cur chr ci cp node.parent_root res cpOut) :
      Visits byz slash cur chr ci cp root res cpOut

lemma walk_to_visits (byz slash : ℚ) (cur : ℕ) (chr : Option ℕ) (ci : ConfInfo) :
    ∀ f cp root res cpOut,
      find_confirmed_block_head byz slash cur chr ci f cp root = .ok (res, cpOut) →
      Visits byz slash cur chr ci cp root res cpOut := by
  intro f
  induction f with
  | zero =>
    intro cp root res cpOut h
    simp [find_confirmed_block_head] at h
  | succ n ih =>
    intro cp root res cpOut h
    simp only [find_confirmed_block_head] at h
    split at h
    · simp at h
    · rename_i cp2 hc
      injection h with h2
      have hr := congrArg Prod.fst h2
      have hcp := congrArg Prod.snd h2
      simp only at hr hcp
      subst hr
      rw [← hcp]
      exact Visits.stop root cp2 n hc
    · rename_i cp2 hc
      split at h
      · simp at h
      · rename_i node hnode
        have hcp2 : cp2 = cp :=
          is_confirmed_false_cp byz slash cur chr cp ci root n cp2 hc
        rw [hcp2] at hc h
        exact Visits.step root res node cpOut n hc hnode (ih cp node.parent_root res cpOut h)

/-- A confirmed result is reproduced when the walk re-runs with the updated
checkpoint value: only the previous-epoch conjunction reads the checkpoint,
and that branch leaves it unchanged. -/
lemma is_confirmed_true_stable (byz slash : ℚ) (cur : ℕ) (chr cp : Option ℕ)
    (ci : ConfInfo) (root f : ℕ) (cpOut : Option ℕ)
    (h : is_confirmed byz slash cur chr cp ci root f = .ok (true, cpOut)) :
    is_confirmed byz slash cur chr cpOut ci root f = .ok (true, cpOut) := by
  simp only [is_confirmed] at h ⊢
  split at h
  · simp at h
  · split at h
    · rename_i hfast
      rw [if_pos hfast]
    · rename_i hfast
      rw [if_neg hfast]
      split at h
      · simp at h
      · split at h
        · rename_i hepoch
          rw [if_pos hepoch]
          split at h
          · simp at h
          · split at h
            · rename_i hguard
              rw [if_pos hguard]
              exact is_ffg_confirmed_stable byz slash cur cp ci root f true cpOut h
            · rename_i hguard
              rw [if_neg hguard]
              simp at h
        · rename_i hepoch
          rw [if_neg hepoch]
          split at h
          · rename_i hz
            rw [if_pos hz]
            split at h
            · rename_i hfin
              rw [if_pos hfin]
              split at h
              · simp at h
              · injection h with h2
                have hb := congrArg Prod.fst h2
                simp only at hb
                rw [hb]
            · rename_i hfin
              rw [if_neg hfin]
              split at h
              · simp at h
              · split at h
                · simp at h
                · injection h with h2
                  have hb := congrArg Prod.fst h2
                  have hcc := congrArg Prod.snd h2
                  simp only at hb hcc
                  rw [← hcc, hb]
          · rename_i hz
            rw [if_neg hz]
            simp at h

/-- Anatomy of one successful `update_confirmed_head` call. -/
lemma update_ok_destruct (st : CState) (ci : ConfInfo) (f : ℕ) (st2 : CState)
    (h : update_confirmed_head st ci f = .ok st2) :
    st.current_slot ≤ ci.current_slot ∧
    ∃ head H cpOut chnode,
      find_head_root ci = .ok head ∧
      find_confirmed_block_head st.byz st.slash ci.current_slot st.confirmed_head_root
        ci f st.ffg_confirmed_checkpoint head = .ok (H, cpOut) ∧
      look ci H = some chnode ∧
      st2.byz = st.byz ∧ st2.slash = st.slash ∧
      st2.current_slot = ci.current_slot ∧
      st2.processed_slots = insert ci.current_slot st.processed_slots ∧
      st2.ffg_confirmed_checkpoint = cpOut ∧
      st2.confirmed_head_slot = max st.confirmed_head_slot chnode.slot ∧
      st2.confirmed_head_root =
        (if st.confirmed_head_slot < chnode.slot then some H else st.confirmed_head_root) ∧
      (chnode.slot ≤ st.confirmed_head_slot → st2.conf_times = st.conf_times) := by
  simp only [update_confirmed_head] at h
  split at h
  · simp at h
  · rename_i hord
    refine ⟨by omega, ?_⟩
    split at h
    · simp at h
    · rename_i head hhead
      split at h
      · simp at h
      · rename_i H cpOut hwalk
        split at h
        · simp at h
        · rename_i chnode hch
          refine ⟨head, H, cpOut, chnode, hhead, hwalk, hch, ?_⟩
          split at h
          · rename_i hgt
            split at h
            · split at h
              · simp at h
              · rename_i ts es hts
                simp only [finish_update] at h
                injection h with h2
                subst h2
                refine ⟨rfl, rfl, rfl, rfl, rfl,
                  by show chnode.slot = max st.confirmed_head_slot chnode.slot; omega,
                  by show some H = _; rw [if_pos hgt], ?_⟩
                intro hle
                exact absurd hle (by omega)
            · simp only [finish_update] at h
              injection h with h2
              subst h2
              refine ⟨rfl, rfl, rfl, rfl, rfl,
                by show chnode.slot = max st.confirmed_head_slot chnode.slot; omega,
                by show some H = _; rw [if_pos hgt], ?_⟩
              intro hle
              exact absurd hle (by omega)
          · rename_i hgt
            simp only [finish_update] at h
            injection h with h2
            subst h2
            refine ⟨rfl, rfl, rfl, rfl, rfl,
              by show st.confirmed_head_slot = max st.confirmed_head_slot chnode.slot; omega,
              by show st.confirmed_head_root = _; rw [if_neg hgt], fun _ => rfl⟩

lemma visits_last (byz slash : ℚ) (cur : ℕ) (chr : Option ℕ) (ci : ConfInfo)
    (cp : Option ℕ) (v res : ℕ) (cpOut : Option ℕ)
    (hvis : Visits byz slash cur chr ci cp v res cpOut) :
    ∃ fz, is_confirmed byz slash cur chr cp ci res fz = .ok (true, cpOut) := by
  induction hvis with
  | stop root cpOut0 f0 hconf => exact ⟨f0, hconf⟩
  | step root res node cpOut0 f0 hconf hlook hrest ih => exact ih

/-- LMD confirmation of a block visited (and rejected) by the first walk is
unchanged when the confirmed-head base case moves to the first walk's result:
the recursion below the new base point was already certified true. -/
lemma lmd_transfer (byz slash : ℚ) (cur : ℕ) (chr : Option ℕ) (ci : ConfInfo)
    (cp : Option ℕ) (chr2 : Option ℕ) (v H : ℕ) (cpOut : Option ℕ)
    (hchr2 : chr2 = some H ∨ chr2 = chr)
    (hvis : Visits byz slash cur chr ci cp v H cpOut) :
    ∀ f b f2 b2, is_lmd_confirmed byz cur chr ci f v = .ok b →
      is_lmd_confirmed byz cur chr2 ci f2 v = .ok b2 → b = b2 := by
  induction hvis with
  | stop root cpOut0 f0 hconf =>
    intro f b f2 b2 h1 h2
    rcases hchr2 with h3 | h3
    · obtain ⟨fH, hH⟩ := is_confirmed_true_lmd byz slash cur chr cp ci root f0 cpOut0 hconf
      have hb : b = true := is_lmd_confirmed_det byz cur chr ci f fH root b true h1 hH
      obtain ⟨m, rfl⟩ : ∃ m, f2 = m + 1 := by
        cases f2 with
        | zero => simp [is_lmd_confirmed] at h2
        | succ m => exact ⟨m, rfl⟩
      simp only [is_lmd_confirmed] at h2
      split at h2
      · simp at h2
      · rw [if_pos (Or.inr h3)] at h2
        rw [hb]
        exact Except.ok.inj h2
    · rw [h3] at h2
      exact is_lmd_confirmed_det byz cur chr ci f f2 root b b2 h1 h2
  | step root res node cpOut0 f0 hconf hlook hrest ih =>
    intro f b f2 b2 h1 h2
    have hnotfast : ¬ (ci.finalized_root = root ∨ chr = some root) :=
      is_confirmed_false_not_fast byz slash cur chr cp ci root f0 cp hconf
    have hnotH : root ≠ res := by
      intro he
      obtain ⟨fz, hz⟩ := visits_last byz slash cur chr ci cp node.parent_root res cpOut0 hrest
      rw [← he] at hz
      have := is_confirmed_det byz slash cur chr cp ci f0 fz root _ _ hconf hz
      simp at this
    obtain ⟨m, rfl⟩ : ∃ m, f = m + 1 := by
      cases f with
      | zero => simp [is_lmd_confirmed] at h1
      | succ m => exact ⟨m, rfl⟩
    obtain ⟨m2, rfl⟩ : ∃ m2, f2 = m2 + 1 := by
      cases f2 with
      | zero => simp [is_lmd_confirmed] at h2
      | succ m2 => exact ⟨m2, rfl⟩
    simp only [is_lmd_confirmed, hlook] at h1 h2
    rw [if_neg hnotfast] at h1
    have hnotfast2 : ¬ (ci.finalized_root = root ∨ chr2 = some root) := by
      rintro (hf | hf)
      · exact hnotfast (Or.inl hf)
      · rcases hchr2 with h3 | h3
        · rw [h3] at hf
          injection hf with hf2
          exact hnotH hf2.symm
        · exact hnotfast (Or.inr (h3 ▸ hf))
    rw [if_neg hnotfast2] at h2
    cases hol : is_one_lmd_confirmed byz cur ci root with
    | error e =>
      rw [hol] at h1
      simp at h1
    | ok bb =>
      rw [hol] at h1 h2
      simp only [] at h1 h2
      cases bb with
      | false =>
        rw [if_neg (by simp)] at h1 h2
        rw [← Except.ok.inj h1, ← Except.ok.inj h2]
      | true =>
        rw [if_pos rfl] at h1 h2
        exact ih hchr2 m b m2 b2 h1 h2

lemma is_ffg_confirmed_det (byz slash : ℚ) (cur : ℕ) (cp : Option ℕ) (ci : ConfInfo)
    (f f2 root : ℕ) (v v2 : Bool × Option ℕ)
    (h : is_ffg_confirmed byz slash cur cp ci root f = .ok v)
    (h2 : is_ffg_confirmed byz slash cur cp ci root f2 = .ok v2) : v = v2 := by
  rcases le_total f f2 with hle | hle
  · have h4 := is_ffg_confirmed_mono byz slash cur cp ci f f2 root v hle h
    rw [h4] at h2
    exact Except.ok.inj h2
  · have h4 := is_ffg_confirmed_mono byz slash cur cp ci f2 f root v2 hle h2
    rw [h4] at h
    exact (Except.ok.inj h).symm

/-- A block rejected by the first walk can be accepted by the second only
through the previous-epoch checkpoint comparison: the flip forces the stored
FFG checkpoint to have changed and the block to sit in the previous epoch. -/
lemma flip_analysis (byz slash : ℚ) (cur : ℕ) (chr : Option ℕ) (ci : ConfInfo)
    (cp chr2 cp2 : Option ℕ) (v H : ℕ) (cpOut : Option ℕ) (f1 f2 : ℕ) (x : Option ℕ)
    (hchr2 : chr2 = some H ∨ chr2 = chr)
    (hvis : Visits byz slash cur chr ci cp v H cpOut)
    (hconf : is_confirmed byz slash cur chr cp ci v f1 = .ok (false, cp))
    (hflip : is_confirmed byz slash cur chr2 cp2 ci v f2 = .ok (true, x)) :
    cp2 ≠ cp ∧ ∃ nd, look ci v = some nd ∧
      ((compute_epoch_at_slot nd.slot : ℤ) = (compute_epoch_at_slot cur : ℤ) - 1) := by
  have hnotfast : ¬ (ci.finalized_root = v ∨ chr = some v) :=
    is_confirmed_false_not_fast byz slash cur chr cp ci v f1 cp hconf
  have hnotH : v ≠ H := by
    intro he
    obtain ⟨fz, hz⟩ := visits_last byz slash cur chr ci cp v H cpOut hvis
    rw [← he] at hz
    have := is_confirmed_det byz slash cur chr cp ci f1 fz v _ _ hconf hz
    simp at this
  have hnotfast2 : ¬ (ci.finalized_root = v ∨ chr2 = some v) := by
    rintro (hf | hf)
    · exact hnotfast (Or.inl hf)
    · rcases hchr2 with h3 | h3
      · rw [h3] at hf
        injection hf with hf2
        exact hnotH hf2.symm
      · exact hnotfast (Or.inr (h3 ▸ hf))
  simp only [is_confirmed] at hconf hflip
  split at hconf
  · simp at hconf
  · rename_i nd hnd
    rw [if_neg hnotfast] at hconf
    split at hflip
    · simp at hflip
    · rename_i nd2 hnd2
      have hnn : nd2 = nd := by
        rw [hnd] at hnd2
        exact (Option.some.inj hnd2).symm
      subst hnn
      rw [if_neg hnotfast2] at hflip
      split at hconf
      · simp at hconf
      · rename_i second hsec1
        split at hflip
        · simp at hflip
        · rename_i second2 hsec2
          have hss : second2 = second :=
            get_ancestor_det ci _ f2 f1 v second2 second hsec2 hsec1
          subst hss
          split at hconf
          · -- current epoch: bool flip impossible
            rename_i hepoch
            rw [if_pos hepoch] at hflip
            exfalso
            split at hconf
            · simp at hconf
            · rename_i lmd1 hlmd1
              split at hflip
              · simp at hflip
              · rename_i lmd2 hlmd2
                split at hflip
                · rename_i hguard2
                  have hlmd2t : lmd2 = true := hguard2.2
                  have hlmd1t : lmd1 = true := by
                    rw [lmd_transfer byz slash cur chr ci cp chr2 v H cpOut hchr2 hvis
                      f1 lmd1 f2 lmd2 hlmd1 hlmd2]
                    exact hlmd2t
                  rw [if_pos ⟨hguard2.1, hlmd1t⟩] at hconf
                  obtain ⟨x2, hx2⟩ := is_ffg_confirmed_cp_indep byz slash cur cp ci v f1
                    false cp cp2 hconf
                  have := is_ffg_confirmed_det byz slash cur cp2 ci f1 f2 v
                    (false, x2) (true, x) hx2 hflip
                  simp at this
                · simp at hflip
          · rename_i hepoch
            rw [if_neg hepoch] at hflip
            split at hconf
            · -- previous epoch
              rename_i hz
              rw [if_pos hz] at hflip
              split at hconf
              · -- second checkpoint finalized: result is the LMD value, flip impossible
                rename_i hfin
                rw [if_pos hfin] at hflip
                exfalso
                split at hconf
                · simp at hconf
                · rename_i lmd1 hlmd1
                  split at hflip
                  · simp at hflip
                  · rename_i lmd2 hlmd2
                    have hl1 : lmd1 = false := by
                      have := Except.ok.inj hconf
                      exact congrArg Prod.fst this
                    have hl2 : lmd2 = true := by
                      have := Except.ok.inj hflip
                      exact congrArg Prod.fst this
                    have := lmd_transfer byz slash cur chr ci cp chr2 v H cpOut hchr2 hvis
                      f1 lmd1 f2 lmd2 hlmd1 hlmd2
                    rw [hl1, hl2] at this
                    simp at this
              · -- full conjunction: the only possible flip
                rename_i hfin
                rw [if_neg hfin] at hflip
                split at hconf
                · simp at hconf
                · rename_i third1 hthird1
                  split at hflip
                  · simp at hflip
                  · rename_i third2 hthird2
                    have htt : third2 = third1 :=
                      get_ancestor_det ci _ f2 f1 v third2 third1 hthird2 hthird1
                    subst htt
                    split at hconf
                    · simp at hconf
                    · rename_i lmd1 hlmd1
                      split at hflip
                      · simp at hflip
                      · rename_i lmd2 hlmd2
                        have hc1 := congrArg Prod.fst (Except.ok.inj hconf)
                        have hc2 := congrArg Prod.fst (Except.ok.inj hflip)
                        simp only [Bool.and_eq_true, decide_eq_true_eq] at hc1 hc2
                        have hlmd1t : lmd1 = true := by
                          rw [lmd_transfer byz slash cur chr ci cp chr2 v H cpOut hchr2 hvis
                            f1 lmd1 f2 lmd2 hlmd1 hlmd2]
                          exact hc2.2.2.1
                        refine ⟨?_, nd2, hnd, hz⟩
                        intro hcc
                        rw [hcc] at hc2
                        simp [hc2.1, hc2.2.1, hlmd1t, hc2.2.2.2] at hc1
            · -- offset at least two: never true
              rename_i hz
              rw [if_neg hz] at hflip
              simp at hflip

lemma is_confirmed_fast_root_true (byz slash : ℚ) (cur : ℕ) (chr cp : Option ℕ)
    (ci : ConfInfo) (root f : ℕ) (v : Bool × Option ℕ) (hf : chr = some root)
    (h : is_confirmed byz slash cur chr cp ci root f = .ok v) : v = (true, cp) := by
  simp only [is_confirmed] at h
  split at h
  · simp at h
  · rw [if_pos (Or.inr hf)] at h
    exact (Except.ok.inj h).symm

/-- The second walk, run from any block visited by the first walk with the
updated confirmed head and checkpoint, stops at a block whose slot does not
exceed the bound `B` covering the first walk's result. -/
lemma walk2_bound (byz slash : ℚ) (cur : ℕ) (chr : Option ℕ) (ci : ConfInfo)
    (cp : Option ℕ) (chr2 : Option ℕ) (v H : ℕ) (cpOut : Option ℕ) (B : ℕ)
    (hvis : Visits byz slash cur chr ci cp v H cpOut)
    (hchr2 : chr2 = some H ∨ chr2 = chr)
    (hHB : ∀ hnode, look ci H = some hnode → hnode.slot ≤ B)
    (hcpB : cpOut ≠ cp → 32 * compute_epoch_at_slot cur ≤ B) :
    ∀ f2 r2 cpO2,
      find_confirmed_block_head byz slash cur chr2 ci f2 cpOut v = .ok (r2, cpO2) →
      ∀ rnode, look ci r2 = some rnode → rnode.slot ≤ B := by
  induction hvis with
  | stop root cpOut0 f0 hconf =>
    intro f2 r2 cpO2 hw rnode hr
    obtain ⟨m, rfl⟩ : ∃ m, f2 = m + 1 := by
      cases f2 with
      | zero => simp [find_confirmed_block_head] at hw
      | succ m => exact ⟨m, rfl⟩
    have htrue : ∀ (pr : Bool × Option ℕ),
        is_confirmed byz slash cur chr2 cpOut0 ci root m = .ok pr → pr.1 = true := by
      intro pr hpr
      rcases hchr2 with h3 | h3
      · rw [is_confirmed_fast_root_true byz slash cur chr2 cpOut0 ci root m pr h3 hpr]
      · rw [h3] at hpr
        have hst := is_confirmed_true_stable byz slash cur chr cp ci root f0 cpOut0 hconf
        have := is_confirmed_det byz slash cur chr cpOut0 ci f0 m root _ _ hst hpr
        rw [← this]
    simp only [find_confirmed_block_head] at hw
    split at hw
    · simp at hw
    · rename_i cc hcc
      have h5 := Except.ok.inj hw
      have hr2 : root = r2 := congrArg Prod.fst h5
      rw [← hr2] at hr
      exact hHB rnode hr
    · rename_i cc hcc
      have := htrue (false, cc) hcc
      simp at this
  | step root res node cpOut0 f0 hconf hlook hrest ih =>
    intro f2 r2 cpO2 hw rnode hr
    obtain ⟨m, rfl⟩ : ∃ m, f2 = m + 1 := by
      cases f2 with
      | zero => simp [find_confirmed_block_head] at hw
      | succ m => exact ⟨m, rfl⟩
    simp only [find_confirmed_block_head] at hw
    split at hw
    · simp at hw
    · rename_i cc hcc
      obtain ⟨hne, nd, hnd, hz⟩ := flip_analysis byz slash cur chr ci cp chr2 cpOut0
        root res cpOut0 f0 m cc hchr2
        (Visits.step root res node cpOut0 f0 hconf hlook hrest) hconf hcc
      have h5 := Except.ok.inj hw
      have hr2 : root = r2 := congrArg Prod.fst h5
      rw [← hr2] at hr
      have hrn : rnode = nd := by
        rw [hnd] at hr
        exact (Option.some.inj hr).symm
      subst hrn
      have hB := hcpB hne
      simp only [compute_epoch_at_slot, SLOTS_PER_EPOCH] at hz hB
      omega
    · rename_i cc hcc
      have hccc : cc = cpOut0 :=
        is_confirmed_false_cp byz slash cur chr2 cpOut0 ci root m cc hcc
      subst hccc
      split at hw
      · simp at hw
      · rename_i node2 hnode2
        have hnn : node2 = node := by
          rw [hlook] at hnode2
          exact (Option.some.inj hnode2).symm
        subst hnn
        exact ih hchr2 hHB hcpB m r2 cpO2 hw rnode hr

/-- C5: `update_confirmed_head` is idempotent on its observable confirmation
state: feeding the same snapshot twice in a row (with its slot not below the
engine's stored slot) leaves `confirmed_head_slot` at the value the first
application produced, appends no further confirmation-time samples, and does
not change the size of `processed_slots` (set semantics). -/
theorem update_confirmed_head_idempotent (st : CState) (ci : ConfInfo) (f : ℕ)
    (st1 st2 : CState)
    (_h0 : st.current_slot ≤ ci.current_slot)
    (h1 : update_confirmed_head st ci f = .ok st1)
    (h2 : update_confirmed_head st1 ci f = .ok st2) :
    st2.confirmed_head_slot = st1.confirmed_head_slot ∧
    st2.conf_times = st1.conf_times ∧
    st2.processed_slots.card = st1.processed_slots.card := by
  obtain ⟨-, head, H, cpOut, chnode, hhead, hwalk, hch, hbyz1, hslash1, hcur1, hproc1,
    hcp1, hslot1, hroot1, hct1⟩ := update_ok_destruct st ci f st1 h1
  obtain ⟨-, head2, H2, cpOut2, chnode2, hhead2, hwalk2, hch2, hbyz2, hslash2, hcur2, hproc2,
    hcp2, hslot2, hroot2, hct2⟩ := update_ok_destruct st1 ci f st2 h2
  have hhh : head2 = head := by
    rw [hhead] at hhead2
    exact (Except.ok.inj hhead2).symm
  rw [hhh] at hwalk2
  have hvis := walk_to_visits st.byz st.slash ci.current_slot st.confirmed_head_root ci f
    st.ffg_confirmed_checkpoint head H cpOut hwalk
  rw [hbyz1, hslash1, hcp1, hroot1] at hwalk2
  have hchr2 : (if st.confirmed_head_slot < chnode.slot then some H
      else st.confirmed_head_root) = some H ∨
      (if st.confirmed_head_slot < chnode.slot then some H
      else st.confirmed_head_root) = st.confirmed_head_root := by
    split
    · exact Or.inl rfl
    · exact Or.inr rfl
  have hHB : ∀ hnode, look ci H = some hnode →
      hnode.slot ≤ max st.confirmed_head_slot chnode.slot := by
    intro hnode hh
    rw [hch] at hh
    rw [← Option.some.inj hh]
    omega
  have hcpB : cpOut ≠ st.ffg_confirmed_checkpoint →
      32 * compute_epoch_at_slot ci.current_slot ≤
        max st.confirmed_head_slot chnode.slot := by
    intro hne
    obtain ⟨fz, hz⟩ := visits_last st.byz st.slash ci.current_slot st.confirmed_head_root
      ci st.ffg_confirmed_checkpoint head H cpOut hvis
    obtain ⟨ndH, hndH, hepochH⟩ := is_confirmed_cp_changed st.byz st.slash ci.current_slot
      st.confirmed_head_root st.ffg_confirmed_checkpoint ci H fz true cpOut hz hne
    rw [hch] at hndH
    rw [← Option.some.inj hndH] at hepochH
    simp only [compute_epoch_at_slot, SLOTS_PER_EPOCH] at hepochH ⊢
    omega
  have hbound := walk2_bound st.byz st.slash ci.current_slot st.confirmed_head_root ci
    st.ffg_confirmed_checkpoint _ head H cpOut (max st.confirmed_head_slot chnode.slot)
    hvis hchr2 hHB hcpB f H2 cpOut2 hwalk2 chnode2 hch2
  refine ⟨?_, ?_, ?_⟩
  · rw [hslot2, hslot1]
    omega
  · refine hct2 ?_
    rw [hslot1]
    exact hbound
  · rw [hproc2, hproc1, Finset.insert_idem]

/-- C6: `update_confirmed_head` raises the ordering violation exactly when
the snapshot's `current_slot` is strictly below the engine's stored
`current_slot`. The assertion fires before any mutation, so the failing call
leaves every engine field unchanged (in this embedding a failing transition
returns an error and no successor state); for snapshots at or above the
stored slot no ordering violation is raised. -/
theorem update_ordering_violation_iff (st : CState) (ci : ConfInfo) (f : ℕ) :
    update_confirmed_head st ci f = .error .ordering ↔
      ci.current_slot < st.current_slot := by
  constructor
  · intro h
    rcases update_confirmed_head_err st ci f .ordering h with ⟨_, h2⟩ | h2 | h2
    · exact h2
    · exact absurd h2 (by simp)
    · exact absurd h2 (by simp)
  · intro h
    simp only [update_confirmed_head]
    rw [if_pos (by omega)]

/-- C10: reached through the public `update_confirmed_head` path, the
current-epoch assertion inside `__is_ffg_confirmed` can never fail:
`__is_confirmed` invokes the FFG check only in its branch where the block's
epoch equals the current epoch, which is exactly the asserted condition; so
any failure of the transition is something other than that assertion. -/
theorem update_never_hits_ffg_assertion (st : CState) (ci : ConfInfo) (f : ℕ)
    (e : Err) (h : update_confirmed_head st ci f = .error e) : e ≠ .assertion := by
  rcases update_confirmed_head_err st ci f e h with ⟨h2, _⟩ | h2 | h2 <;>
    subst h2 <;> simp

/-- Witness for `update_never_hits_ffg_assertion`: a call that does fail (an
ordering violation) fails with an error other than the FFG assertion. -/
theorem update_never_hits_ffg_assertion_witness : Err.ordering ≠ Err.assertion :=
  update_never_hits_ffg_assertion
    { init_state 0 0 with current_slot := 5 }
    { nodes := [], justified_root := 0, finalized_root := 0, current_slot := 2,
      current_time_in_slot := 0, committee_size := 1 } 4 .ordering (by decide)

/-- One successful transition never lowers `confirmed_head_slot`: when the
newly computed head slot is not higher, the stored value is kept. -/
lemma update_confirmed_head_slot_mono (st : CState) (ci : ConfInfo) (f : ℕ)
    (st2 : CState) (h : update_confirmed_head st ci f = .ok st2) :
    st.confirmed_head_slot ≤ st2.confirmed_head_slot := by
  simp only [update_confirmed_head] at h
  split at h
  · simp at h
  · split at h
    · simp at h
    · split at h
      · simp at h
      · split at h
        · simp at h
        · split at h
          · split at h
            · split at h
              · simp at h
              · simp only [finish_update] at h
                injection h with h2
                subst h2
                simp
                omega
            · simp only [finish_update] at h
              injection h with h2
              subst h2
              simp
              omega
          · simp only [finish_update] at h
            injection h with h2
            subst h2
            simp

/-- C7: across any batch of successful `update_confirmed_head` applications,
the engine's `confirmed_head_slot` never decreases: a lower computed head is
only logged as an anomaly while the stored head root and slot are kept. -/
theorem confirmed_head_slot_monotone (f : ℕ) (st : CState) (l : List ConfInfo)
    (st2 : CState) (h : apply_snapshots f st l = .ok st2) :
    st.confirmed_head_slot ≤ st2.confirmed_head_slot := by
  induction l generalizing st with
  | nil =>
    simp only [apply_snapshots] at h
    injection h with h2
    subst h2
    exact le_refl _
  | cons ci rest ih =>
    simp only [apply_snapshots] at h
    split at h
    · simp at h
    · rename_i st1 h1
      exact le_trans (update_confirmed_head_slot_mono st ci f st1 h1) (ih st1 h)

/-- A single-node snapshot whose only block is finalized: the walk confirms
it via the fast path. -/
def single_block_snapshot : ConfInfo :=
  { nodes := [(5, ⟨5, 0, 0, 5⟩)], justified_root := 5, finalized_root := 5,
    current_slot := 0, current_time_in_slot := 0, committee_size := 1 }

/-- Witness for `confirmed_head_slot_monotone` on a one-snapshot batch. -/
theorem confirmed_head_slot_monotone_witness :
    (init_state 0 0).confirmed_head_slot ≤
      ({ init_state 0 0 with
        processed_slots := {0},
        times_from_confirmed_head := [0] } : CState).confirmed_head_slot :=
  confirmed_head_slot_monotone 4 (init_state 0 0) [single_block_snapshot]
    { init_state 0 0 with
      processed_slots := {0},
      times_from_confirmed_head := [0] } (by decide)

/-- Witness for `update_confirmed_head_idempotent` on a one-block snapshot
fed twice to a fresh engine. -/
theorem update_confirmed_head_idempotent_witness :
    ({ init_state 0 0 with
        processed_slots := {0},
        times_from_confirmed_head := [0, 0] } : CState).confirmed_head_slot =
      ({ init_state 0 0 with
        processed_slots := {0},
        times_from_confirmed_head := [0] } : CState).confirmed_head_slot ∧
    ({ init_state 0 0 with
        processed_slots := {0},
        times_from_confirmed_head := [0, 0] } : CState).conf_times =
      ({ init_state 0 0 with
        processed_slots := {0},
        times_from_confirmed_head := [0] } : CState).conf_times ∧
    ({ init_state 0 0 with
        processed_slots := {0},
        times_from_confirmed_head := [0, 0] } : CState).processed_slots.card =
      ({ init_state 0 0 with
        processed_slots := {0},
        times_from_confirmed_head := [0] } : CState).processed_slots.card :=
  update_confirmed_head_idempotent (init_state 0 0) single_block_snapshot 4
    { init_state 0 0 with
      processed_slots := {0}, times_from_confirmed_head := [0] }
    { init_state 0 0 with
      processed_slots := {0}, times_from_confirmed_head := [0, 0] }
    (by decide) (by decide) (by decide)

/-- C1: the single-block LMD test returns true exactly when
`100 * (weight - proposer_score)` exceeds
`50 * maximum_support + 50 * proposer_score + byz * 100 * maximum_support`,
where `maximum_support` is the committee weight over
`[parent_slot + 1, current_slot]` and `proposer_score` is 40% of
`ceil(total_active_balance / SLOTS_PER_EPOCH)`. -/
theorem one_lmd_confirmed_iff (byz : ℚ) (cur : ℕ) (ci : ConfInfo) (root : ℕ)
    (node pnode : Node) (hcur : cur = ci.current_slot)
    (h1 : look ci root = some node) (h2 : look ci node.parent_root = some pnode) :
    (is_one_lmd_confirmed byz cur ci root = .ok true ↔
      100 * ((node.weight : ℚ) - proposer_score ci) >
        50 * (get_committee_weight_between_slots ci (pnode.slot + 1) ci.current_slot : ℚ) +
          50 * proposer_score ci +
          byz * 100 *
            (get_committee_weight_between_slots ci (pnode.slot + 1) ci.current_slot : ℚ)) := by
  subst hcur
  simp [is_one_lmd_confirmed, h1, h2]

/-- A two-node chain used to instantiate the LMD theorem: block 1 at slot 1
with weight 36 ETH-Gwei-units on top of the genesis block 0. -/
def lmd_sample_snapshot : ConfInfo :=
  { nodes := [(1, ⟨1, 1, 36000000000, 0⟩), (0, ⟨0, 0, 0, 0⟩)],
    justified_root := 0, finalized_root := 0, current_slot := 1,
    current_time_in_slot := 0, committee_size := 1 }

/-- Witness for `one_lmd_confirmed_iff` on `lmd_sample_snapshot`. -/
theorem one_lmd_confirmed_iff_witness :
    (is_one_lmd_confirmed 0 1 lmd_sample_snapshot 1 = .ok true ↔
      100 * ((36000000000 : ℚ) - proposer_score lmd_sample_snapshot) >
        50 * (get_committee_weight_between_slots lmd_sample_snapshot (0 + 1)
            lmd_sample_snapshot.current_slot : ℚ) +
          50 * proposer_score lmd_sample_snapshot +
          0 * 100 * (get_committee_weight_between_slots lmd_sample_snapshot (0 + 1)
            lmd_sample_snapshot.current_slot : ℚ)) :=
  one_lmd_confirmed_iff 0 1 lmd_sample_snapshot 1 ⟨1, 1, 36000000000, 0⟩ ⟨0, 0, 0, 0⟩
    rfl rfl rfl

/-- C2: the FFG test returns true exactly when
`(2/3) * total ≤ support - max_adversarial + (1 - byz) * remaining`, where
the support is the checkpoint's LMD weight minus the proposer boost and the
maximum adversarial support is the minimum of the byzantine share of the
already-cast weight, the slashing share of the total weight, and the
checkpoint's own measured support. -/
theorem ffg_confirmed_iff (byz slash : ℚ) (cur : ℕ) (cp : Option ℕ) (ci : ConfInfo)
    (root f : ℕ) (node cpNode : Node) (cpRoot : ℕ) (out : Bool × Option ℕ)
    (hcur : cur = ci.current_slot)
    (h1 : look ci root = some node)
    (hE : compute_epoch_at_slot node.slot = compute_epoch_at_slot cur)
    (h2 : get_checkpoint_block ci root ((compute_epoch_at_slot node.slot : ℕ) : ℤ) f = .ok cpRoot)
    (h3 : look ci cpRoot = some cpNode)
    (h4 : is_ffg_confirmed byz slash cur cp ci root f = .ok out) :
    (out.1 = true ↔
      (2 : ℚ) / 3 * (get_total_active_balance ci : ℚ) ≤
        ((cpNode.weight : ℚ) - proposer_score ci) -
          min (min (byz * ((get_total_active_balance ci : ℚ) -
              (get_remaining_weight_in_epoch ci.current_slot ci : ℚ)))
            (slash * (get_total_active_balance ci : ℚ)))
            ((cpNode.weight : ℚ) - proposer_score ci) +
          (1 - byz) * (get_remaining_weight_in_epoch ci.current_slot ci : ℚ)) := by
  subst hcur
  simp only [is_ffg_confirmed, h1] at h4
  rw [if_neg (by simp [hE])] at h4
  simp only [get_checkpoint_ffg_support, h2, h3] at h4
  injection h4 with h5
  subst h5
  simp [ffg_required_weight, pymin_eq_min]

/-- A one-node snapshot (genesis only, weight 32 ETH-Gwei-units) used to
instantiate the FFG theorem. -/
def ffg_sample_snapshot : ConfInfo :=
  { nodes := [(0, ⟨0, 0, 32000000000, 0⟩)],
    justified_root := 0, finalized_root := 0, current_slot := 0,
    current_time_in_slot := 0, committee_size := 1 }

/-- Witness for `ffg_confirmed_iff` on `ffg_sample_snapshot`. -/
theorem ffg_confirmed_iff_witness :
    ((true : Bool) = true ↔
      (2 : ℚ) / 3 * (get_total_active_balance ffg_sample_snapshot : ℚ) ≤
        ((32000000000 : ℚ) - proposer_score ffg_sample_snapshot) -
          min (min (0 * ((get_total_active_balance ffg_sample_snapshot : ℚ) -
              (get_remaining_weight_in_epoch ffg_sample_snapshot.current_slot
                ffg_sample_snapshot : ℚ)))
            (0 * (get_total_active_balance ffg_sample_snapshot : ℚ)))
            ((32000000000 : ℚ) - proposer_score ffg_sample_snapshot) +
          (1 - 0) * (get_remaining_weight_in_epoch ffg_sample_snapshot.current_slot
            ffg_sample_snapshot : ℚ)) :=
  ffg_confirmed_iff 0 0 0 none ffg_sample_snapshot 0 4 ⟨0, 0, 32000000000, 0⟩
    ⟨0, 0, 32000000000, 0⟩ 0 (true, none) rfl rfl rfl rfl rfl (by
      norm_num [is_ffg_confirmed, look, ffg_sample_snapshot, List.lookup,
        compute_epoch_at_slot, SLOTS_PER_EPOCH, get_checkpoint_ffg_support,
        get_checkpoint_block, get_ancestor, proposer_score, get_total_active_balance,
        get_remaining_weight_in_epoch, VALIDATOR_BALANCE, PROPOSER_SCORE_BOOST,
        ceil_div, ffg_required_weight, pymin])

/-- Confirmation-time formula of `__compute_conf_times`:
`(current_slot - slot) * SLOT_LEN + time_in_current_slot` per visited slot. -/
def visited_times (cur t : ℕ) (slots : List ℕ) : List ℤ :=
  slots.map (fun (s : ℕ) => ((cur : ℤ) - (s : ℤ)) * (SLOT_LEN : ℤ) + (t : ℤ))

/-- The slots recorded as empty-or-forked by the walk of
`__compute_conf_times`: for each consecutive pair of visited slots (and
finally down to the old confirmed slot), every integer slot strictly in
between, emitted innermost-first within each gap. -/
def gap_slots : ℕ → List ℕ → ℕ → List ℕ
  | pre, [], old => List.range' (old + 1) (pre - old - 1)
  | pre, x :: xs, old => List.range' (x + 1) (pre - x - 1) ++ gap_slots x xs old

/-- The parent chain actually visited by the loop of `__compute_conf_times`:
starting at `r`, the listed nodes are looked up in order, each above the old
confirmed slot, linked by `parent_root`, ending at the old confirmed root. -/
def walk_chain (ci : ConfInfo) (oldRoot oldSlot : ℕ) : ℕ → List (ℕ × Node) → Prop
  | r, [] => r = oldRoot
  | r, (r0, n0) :: rest =>
      r0 = r ∧ r ≠ oldRoot ∧ look ci r = some n0 ∧ oldSlot < n0.slot ∧
        walk_chain ci oldRoot oldSlot n0.parent_root rest

lemma conf_times_go_spec (ci : ConfInfo) (oldRoot oldSlot cur t : ℕ) :
    ∀ (vs : List (ℕ × Node)) (r p f : ℕ) (acc : List ℤ) (emp : List ℕ),
      walk_chain ci oldRoot oldSlot r vs → vs.length < f →
      conf_times_go (some oldRoot) oldSlot cur t ci f r p acc emp =
        .ok (acc ++ visited_times cur t (vs.map (fun pr => pr.2.slot)),
             emp ++ gap_slots p (vs.map (fun pr => pr.2.slot)) oldSlot) := by
  intro vs
  induction vs with
  | nil =>
    intro r p f acc emp hw hf
    obtain ⟨f2, rfl⟩ : ∃ f2, f = f2 + 1 := ⟨f - 1, by omega⟩
    simp only [walk_chain] at hw
    subst hw
    simp [conf_times_go, visited_times, gap_slots]
  | cons hd rest ih =>
    intro r p f acc emp hw hf
    obtain ⟨r0, n0⟩ := hd
    obtain ⟨rfl, hne, hlk, hslot, hrest⟩ := hw
    obtain ⟨f2, rfl⟩ : ∃ f2, f = f2 + 1 := ⟨f - 1, by omega⟩
    simp only [conf_times_go, hlk]
    rw [if_neg (by simp [Ne.symm hne]), if_neg (by omega)]
    rw [ih n0.parent_root n0.slot f2 _ _ hrest (by simp at hf; omega)]
    simp [visited_times, gap_slots]

lemma gap_slots_bound (old : ℕ) :
    ∀ (xs : List ℕ) (p : ℕ),
      (p :: (xs ++ [old])).Pairwise (fun a b => b < a) →
      ∀ g ∈ gap_slots p xs old, old < g ∧ g < p ∧ g ∉ xs := by
  intro xs
  induction xs with
  | nil =>
    intro p hc g hg
    simp only [gap_slots, List.mem_range'] at hg
    have hop : old < p := by
      have := (List.pairwise_cons.mp hc).1 old (by simp)
      omega
    exact ⟨by omega, by omega, by simp⟩
  | cons x xs ih =>
    intro p hc g hg
    obtain ⟨hp, hc1⟩ := List.pairwise_cons.mp hc
    have hxp : x < p := hp x (by simp)
    have hxolds : ∀ y ∈ xs ++ [old], y < x := (List.pairwise_cons.mp hc1).1
    have hox : old < x := hxolds old (by simp)
    simp only [gap_slots, List.mem_append] at hg
    rcases hg with hg | hg
    · simp only [List.mem_range'] at hg
      refine ⟨by omega, by omega, ?_⟩
      simp only [List.mem_cons, not_or]
      constructor
      · omega
      · intro hgx
        have := hxolds g (by simp [hgx])
        omega
    · obtain ⟨h1, h2, h3⟩ := ih x hc1 g hg
      refine ⟨h1, by omega, ?_⟩
      simp only [List.mem_cons, not_or]
      exact ⟨by omega, h3⟩

lemma gap_slots_nodup (old : ℕ) :
    ∀ (xs : List ℕ) (p : ℕ),
      (p :: (xs ++ [old])).Pairwise (fun a b => b < a) →
      (gap_slots p xs old).Nodup := by
  intro xs
  induction xs with
  | nil =>
    intro p hc
    simp only [gap_slots]
    exact List.nodup_range' _ _
  | cons x xs ih =>
    intro p hc
    obtain ⟨hp, hc1⟩ := List.pairwise_cons.mp hc
    simp only [gap_slots]
    refine List.Nodup.append (List.nodup_range' _ _) (ih x hc1) ?_
    intro g hg1 hg2
    simp only [List.mem_range'] at hg1
    have := (gap_slots_bound old xs x hc1 g hg2).2.1
    omega

/-- C8: when the confirmed head advances along a parent chain down to the
old confirmed head, `__compute_conf_times` returns exactly one confirmation
time `(current_slot - slot) * SLOT_LEN + time_in_current_slot` per visited
block, and appends as empty-or-forked exactly the slots strictly between
consecutive visited slots (finally down to the old confirmed slot), each at
most once; no confirmation-time sample is produced for any of those
intervening slots. -/
theorem compute_conf_times_spec (ci : ConfInfo) (oldRoot oldSlot cur t newHead f : ℕ)
    (n0 : Node) (rest : List (ℕ × Node))
    (hw : walk_chain ci oldRoot oldSlot newHead ((newHead, n0) :: rest))
    (hf : rest.length + 1 < f)
    (hchain : (n0.slot :: (rest.map (fun pr => pr.2.slot) ++ [oldSlot])).Pairwise
      (fun a b => b < a)) :
    compute_conf_times (some oldRoot) oldSlot cur t ci newHead f =
      .ok (visited_times cur t (n0.slot :: rest.map (fun pr => pr.2.slot)),
           gap_slots n0.slot (rest.map (fun pr => pr.2.slot)) oldSlot) ∧
    (gap_slots n0.slot (rest.map (fun pr => pr.2.slot)) oldSlot).Nodup ∧
    (∀ g ∈ gap_slots n0.slot (rest.map (fun pr => pr.2.slot)) oldSlot,
      g ∉ (n0.slot :: rest.map (fun pr => pr.2.slot)) ∧
      (((cur : ℤ) - (g : ℤ)) * (SLOT_LEN : ℤ) + (t : ℤ)) ∉
        visited_times cur t (n0.slot :: rest.map (fun pr => pr.2.slot))) := by
  obtain ⟨-, hne, hlk, hslot, hrest⟩ := hw
  refine ⟨?_, gap_slots_nodup oldSlot _ _ hchain, ?_⟩
  · simp only [compute_conf_times, hlk]
    rw [conf_times_go_spec ci oldRoot oldSlot cur t ((newHead, n0) :: rest) newHead
      n0.slot f [] [] ⟨rfl, hne, hlk, hslot, hrest⟩ (by simp; omega)]
    have hz : n0.slot - n0.slot - 1 = 0 := by omega
    simp [gap_slots, hz, visited_times]
  · intro g hg
    obtain ⟨hog, hgp, hgnot⟩ := gap_slots_bound oldSlot _ _ hchain g hg
    constructor
    · simp only [List.mem_cons, not_or]
      exact ⟨by omega, hgnot⟩
    · intro hmem
      simp only [visited_times] at hmem
      obtain ⟨sl, hsl, heq⟩ := List.mem_map.mp hmem
      have hsg : sl = g := by
        simp only [SLOT_LEN] at heq
        push_cast at heq
        omega
      subst hsg
      rcases List.mem_cons.mp hsl with h | h
      · omega
      · exact hgnot h

/-- Two blocks at slots 13 and 10: the walk from 13 stops at the old
confirmed head 10, recording `{11, 12}` as empty-or-forked. -/
def gap_sample_snapshot : ConfInfo :=
  { nodes := [(13, ⟨13, 13, 0, 10⟩), (10, ⟨10, 10, 0, 10⟩)], justified_root := 10,
    finalized_root := 10, current_slot := 13, current_time_in_slot := 7,
    committee_size := 1 }

/-- Witness for `compute_conf_times_spec`: the confirmed head jumps from
slot 10 to slot 13; exactly `[11, 12]` are recorded as empty-or-forked and
the single confirmation time belongs to slot 13. -/
theorem compute_conf_times_spec_witness :
    compute_conf_times (some 10) 10 13 7 gap_sample_snapshot 13 3 =
      .ok (visited_times 13 7 [13], gap_slots 13 [] 10) ∧
    (gap_slots 13 [] 10).Nodup ∧
    (∀ g ∈ gap_slots 13 [] 10, g ∉ ([13] : List ℕ) ∧
      (((13 : ℤ) - (g : ℤ)) * (SLOT_LEN : ℤ) + (7 : ℤ)) ∉ visited_times 13 7 [13]) :=
  compute_conf_times_spec gap_sample_snapshot 10 10 13 7 13 3 ⟨13, 13, 0, 10⟩ []
    ⟨rfl, by decide, rfl, by decide, rfl⟩ (by norm_num) (by decide)

/-- C9 counterexample: with committee size 1 the left side of the FFG
comparison, `(2/3) * total_validators_weight`, is not an integer (its exact
value is `2048000000000 / 3`), so not every quantity entering the safety
comparisons is an exact integer. -/
theorem ffg_left_side_not_integer_cex :
    ¬ ∃ n : ℤ, ffg_required_weight (wci 1) = (n : ℚ) := by
  rintro ⟨n, h⟩
  have h3 : (n : ℚ) * 3 = 2048000000000 := by
    rw [← h]
    norm_num [ffg_required_weight, get_total_active_balance, wci, SLOTS_PER_EPOCH,
      VALIDATOR_BALANCE]
  have h4 : n * 3 = 2048000000000 := by exact_mod_cast h3
  omega

/-- C9 (amended): `total_active_balance`, `committee_weight` and
`remaining_weight_in_epoch` are exact integers (every inexact division is
ceiling division on integers), and the proposer score — although computed
with float coefficients — is the exact integer
`committee_size * 12800000000`; the confirmation comparisons themselves,
however, mix these with the fractional coefficients `2/3`, `40/100` and the
thresholds, so their sides are not integer-valued in general (see the
counterexample). -/
theorem weight_arithmetic_integrality_amended (ci : ConfInfo) :
    (∃ n : ℕ, proposer_score ci = (n : ℚ) ∧ n = ci.committee_size * 12800000000) ∧
    (∀ s e : ℕ, ∃ m : ℕ, get_committee_weight_between_slots ci s e = m) ∧
    (∃ k : ℕ, get_total_active_balance ci = k) ∧
    (∀ c : ℕ, ∃ r : ℕ, get_remaining_weight_in_epoch c ci = r) := by
  refine ⟨⟨ci.committee_size * 12800000000, ?_, rfl⟩,
    fun s e => ⟨_, rfl⟩, ⟨_, rfl⟩, fun c => ⟨_, rfl⟩⟩
  have h1 : get_total_active_balance ci = 32 * (ci.committee_size * 32000000000) := by
    simp only [get_total_active_balance, SLOTS_PER_EPOCH, VALIDATOR_BALANCE]
    ring
  rw [proposer_score, h1, SLOTS_PER_EPOCH, ceil_div_self_mul _ _ (by norm_num),
    PROPOSER_SCORE_BOOST]
  push_cast
  ring

end ConfRule
